import Mathlib

/-!
Verification development for the epic node core: a shallow embedding of the
Orphan Blocks Container (`src/storage/obc.cpp`) and of the relevant parts of
the Peer Manager (`src/peer/peer_manager.cpp`, `src/net/peer_manager.h`),
together with proofs and refutations of the specified properties.

Hashes (`uint256`) are modelled as `Nat`.  The OBC state is modelled with
association lists keyed by `Nat` mirroring the two `unordered_map`s; the
shared `obc_dep` objects are modelled by an append-only store indexed by a
creation id, mirroring pointer identity of the `std::shared_ptr<obc_dep>`
objects (two distinct `make_shared` allocations are distinct pointers even if
their fields coincide).
-/

namespace Epic

/-- Association-list lookup, mirroring `unordered_map::find`. -/
def alookup {α : Type} : List (Nat × α) → Nat → Option α
  | [], _ => none
  | (k, v) :: t, h => if k = h then some v else alookup t h

/-- Association-list insert-or-assign, mirroring `unordered_map::insert_or_assign`
(and `operator[]` followed by assignment): replace the binding if the key is
present, otherwise append a fresh binding. -/
def aset {α : Type} : List (Nat × α) → Nat → α → List (Nat × α)
  | [], k, v => [(k, v)]
  | (k', v') :: t, k, v => if k' = k then (k, v) :: t else (k', v') :: aset t k v

/-- Association-list erase, mirroring `unordered_map::erase` by key: remove the
first binding of the key (the maps in the source never hold duplicate keys). -/
def aerase {α : Type} : List (Nat × α) → Nat → List (Nat × α)
  | [], _ => []
  | (k', v') :: t, k => if k' = k then t else (k', v') :: aerase t k

/-- Set-style insert into a list, mirroring `std::unordered_set::insert`:
no effect when the element is already present. -/
def sinsert (x : Nat) (l : List Nat) : List Nat :=
  if x ∈ l then l else l ++ [x]

/-- A block as the OBC sees it: its own content hash and its three declared
parent hashes (milestone, tip, previous). -/
structure Block where
  hash : Nat
  ms : Nat
  tip : Nat
  prev : Nat
deriving DecidableEq, Repr

/-- `obc_dep`: one orphan block together with the count of its still-missing
predecessors and the list of (ids of) orphans that depend on this block's own
hash (`deps`, in `push_back` order).  `ndeps` models the unsigned counter of
the source; see `decWrap`. -/
structure Dep where
  block : Block
  ndeps : Nat
  deps : List Nat
deriving DecidableEq, Repr

/-- The OBC state: the append-only store of all `obc_dep` objects ever created
(index = creation id, modelling pointer identity), `block_dep_map_`
(block hash → dep id) and `lose_ends_` (awaited hash → ids of waiting deps,
in insertion order, without duplicates). -/
structure Obc where
  store : List Dep
  bmap : List (Nat × Nat)
  lose : List (Nat × List Nat)
deriving DecidableEq, Repr

/-- The empty container. -/
def obc0 : Obc := ⟨[], [], []⟩

/-- Modelled from the spec: `ndeps` is an unsigned machine counter (the header
`obc.h` defining its exact type is not under `src/`); decrementing an unsigned
value at zero wraps around to the maximum.  The spec keeps `ndeps` in 1–3, so
only "wraps to something strictly greater than 3" is ever relevant; the 8-bit
maximum 255 is used. -/
def decWrap (n : Nat) : Nat :=
  if n = 0 then 255 else n - 1

/-- Modelled from the spec: the missing-mask bit for the milestone parent
(`M_MISSING`); the header defining the flag values is not under `src/`, the
three flags are taken as the three low bits of the `uint8_t` mask. -/
def maskM (mask : Nat) : Bool := mask % 2 = 1

/-- Modelled from the spec: the missing-mask bit for the tip parent (`T_MISSING`). -/
def maskT (mask : Nat) : Bool := mask / 2 % 2 = 1

/-- Modelled from the spec: the missing-mask bit for the prev parent (`P_MISSING`). -/
def maskP (mask : Nat) : Bool := mask / 4 % 2 = 1

/-- Update the dep stored under an id in place (the store models the shared
heap, so mutating a `shared_ptr` target is an in-place update). -/
def updDep (store : List Dep) (i : Nat) (f : Dep → Dep) : List Dep :=
  match store[i]? with
  | some d => store.set i (f d)
  | none => store

/-- The body of the `common_insert` lambda of `OrphanBlocksContainer::AddBlock`:
for a missing parent hash `h` of the new dep `i`, either link `i` into the
`deps` list of the dep already holding `h` in `block_dep_map_`, or record `i`
as a lose end waiting for `h`. -/
def commonInsert (i : Nat) (h : Nat) (s : Obc) : Obc :=
  match alookup s.bmap h with
  | some e => { s with store := updDep s.store e (fun d => { d with deps := d.deps ++ [i] }) }
  | none => { s with lose := aset s.lose h (sinsert i ((alookup s.lose h).getD [])) }

/-- The parent hashes of `b` selected by the mask, in the order `AddBlock`
inspects them (milestone, tip, prev). -/
def maskedParents (b : Block) (mask : Nat) : List Nat :=
  (if maskM mask then [b.ms] else []) ++
    (if maskT mask then [b.tip] else []) ++
      (if maskP mask then [b.prev] else [])

/-- The three conditional `common_insert` calls of `AddBlock`, in source order
(milestone, tip, prev). -/
def addBlockInserts (i : Nat) (b : Block) (mask : Nat) (s : Obc) : Obc :=
  let s2 := if maskM mask then commonInsert i b.ms s else s
  let s3 := if maskT mask then commonInsert i b.tip s2 else s2
  if maskP mask then commonInsert i b.prev s3 else s3

/-- The first two statements of the non-trivial branch of `AddBlock`: allocate
the fresh dep for the block (`make_shared`) and `insert_or_assign` it into
`block_dep_map_` keyed on the block's own hash. -/
def addBlockBase (s : Obc) (b : Block) : Obc :=
  { s with store := s.store ++ [⟨b, 0, []⟩], bmap := aset s.bmap b.hash s.store.length }

/-- `OrphanBlocksContainer::AddBlock`: no-op on a zero mask; otherwise create a
fresh dep, insert it into `block_dep_map_` keyed on the block's own hash
(before the parent lookups, as in the source), run `common_insert` for each
masked parent, and finally set `ndeps` to the number of distinct missing
parent hashes (`unique_missing_hashes.size()`). -/
def AddBlock (s : Obc) (b : Block) (mask : Nat) : Obc :=
  if mask = 0 then s
  else
    let i := s.store.length
    let s4 := addBlockInserts i b mask (addBlockBase s b)
    { s4 with store := updDep s4.store i (fun d => { d with ndeps := (maskedParents b mask).dedup.length }) }

/-- The while-loop of `OrphanBlocksContainer::SubmitHash`, with explicit fuel
(the C++ loop terminates because `deps` lists only ever point to later-created
deps; the fuel passed by `SubmitHash` is generous for every run appearing in
this development, and no theorem below depends on the loop running to
completion).  The stack is kept head-first: popping `back()` and pushing a
list by `push_back` corresponds to popping the head and consing the reversed
list. -/
def submitLoop : Nat → Obc → List Nat → List Block → Obc × List Block
  | 0, s, _, acc => (s, acc)
  | _ + 1, s, [], acc => (s, acc)
  | fuel + 1, s, i :: stk, acc =>
    match s.store[i]? with
    | none => submitLoop fuel s stk acc
    | some d =>
      let n := decWrap d.ndeps
      let s1 : Obc := { s with store := s.store.set i { d with ndeps := n } }
      if n > 0 then submitLoop fuel s1 stk acc
      else
        let s2 : Obc := { s1 with bmap := aerase s1.bmap d.block.hash }
        submitLoop fuel s2 (d.deps.reverse ++ stk) (acc ++ [d.block])

/-- Fuel bound used by `SubmitHash`: comfortably larger than the number of
loop iterations of any run in this development. -/
def fuelBound (s : Obc) (stk : List Nat) : Nat :=
  s.store.foldl (fun a d => a + 1 + d.deps.length) 0 + stk.length + 1

/-- The non-trivial branch of `SubmitHash`: erase the lose ends tied by the
hash, seed the work stack with them (LIFO, so the list is reversed into the
head-first stack) and run the release loop. -/
def submitHashRun (s : Obc) (h : Nat) (waiting : List Nat) : Obc × List Block :=
  submitLoop (fuelBound { s with lose := aerase s.lose h } waiting)
    { s with lose := aerase s.lose h } waiting.reverse []

/-- `OrphanBlocksContainer::SubmitHash`: if the hash ties no lose ends, return
the empty optional and leave the state untouched; otherwise run the release
loop on the removed lose ends.  The second component is `none` exactly for the
early `return {}`. -/
def SubmitHash (s : Obc) (h : Nat) : Obc × Option (List Block) :=
  match alookup s.lose h with
  | none => (s, none)
  | some waiting => ((submitHashRun s h waiting).1, some (submitHashRun s h waiting).2)

/-- `OrphanBlocksContainer::Contains`. -/
def Contains (s : Obc) (h : Nat) : Bool :=
  (alookup s.bmap h).isSome

/-- `OrphanBlocksContainer::Size`. -/
def Size (s : Obc) : Nat := s.bmap.length

/-- `OrphanBlocksContainer::DependencySize`. -/
def DependencySize (s : Obc) : Nat := s.lose.length

/-- One call of an OBC history: `AddBlock` or `SubmitHash`. -/
inductive Call where
  | add : Block → Nat → Call
  | submit : Nat → Call
deriving DecidableEq, Repr

/-- Apply one call, returning the new state and the blocks this call released
(empty for `AddBlock` and for a `SubmitHash` that tied no lose ends). -/
def applyCall (s : Obc) : Call → Obc × List Block
  | .add b m => (AddBlock s b m, [])
  | .submit h =>
    let r := SubmitHash s h
    (r.1, r.2.getD [])

/-- Run a call sequence from a state, accumulating the concatenation of all
`SubmitHash` results. -/
def runFrom (s : Obc) (log : List Block) : List Call → Obc × List Block
  | [] => (s, log)
  | c :: cs =>
    let r := applyCall s c
    runFrom r.1 (log ++ r.2) cs

/-- Run a call sequence from the empty container. -/
def run (cs : List Call) : Obc × List Block :=
  runFrom obc0 [] cs

/-- Per-call guard: each `AddBlock` call's block hash is not currently awaited
as a lose end.  (The counterpart of the spec's caller-side dedup assumption;
violating it is exactly what breaks the lose-end/map disjointness.) -/
def loseOkSeq : Obc → List Call → Bool
  | _, [] => true
  | s, .add b m :: cs => (alookup s.lose b.hash).isNone && loseOkSeq (AddBlock s b m) cs
  | s, .submit h :: cs => loseOkSeq (SubmitHash s h).1 cs

/-- Per-call guard: each `AddBlock` call's block hash differs from the hash of
every previously added block (the store is append-only, so it records every
block ever added).  This rules out the `insert_or_assign` replacement case. -/
def freshOk : Obc → List Call → Bool
  | _, [] => true
  | s, .add b m :: cs => (s.store.all fun d => d.block.hash ≠ b.hash) && freshOk (AddBlock s b m) cs
  | s, .submit h :: cs => freshOk (SubmitHash s h).1 cs

/-! Concrete blocks used in counterexamples and witnesses.  Hashes:
`exA` = 10, `exB` = 20 (prev = 10), `exC` = 30 (prev = 20), `exX` = 40
(prev = 5), `exDup` = 22 with milestone = tip = 40 (a legal block whose two
parent fields carry the same hash). -/

/-- Example block A (hash 10, no declared parents used). -/
def exA : Block := ⟨10, 0, 0, 0⟩

/-- Example block B (hash 20, prev parent = A). -/
def exB : Block := ⟨20, 0, 0, 10⟩

/-- Example block C (hash 30, prev parent = B). -/
def exC : Block := ⟨30, 0, 0, 20⟩

/-- Example block X (hash 40, prev parent = 5). -/
def exX : Block := ⟨40, 0, 0, 5⟩

/-- Example block with duplicate parent fields: milestone = tip = 40. -/
def exDup : Block := ⟨22, 40, 40, 0⟩

/-! ## Peer Manager model (`src/peer/peer_manager.cpp`, `src/net/peer_manager.h`) -/

/-- A network address (`NetAddress`): IP and port, compared componentwise. -/
structure NetAddr where
  ip : Nat
  port : Nat
deriving DecidableEq, Repr

/-- The peer attributes the modelled Peer-Manager code reads.  The `Peer`
class itself is not under `src/`; the observable attributes are modelled from
the spec (§3 "Peer"): `isVaild` is `Peer::IsVaild()` (spelling from the
source), `syncTimeout` is the value of `Peer::IsSyncTimeout()`, and
`address_me_` is the peer-reported address from its version message
(`versionMessage->address_me_`), modelled as a total field. -/
structure Peer where
  isVaild : Bool
  isFullyConnected : Bool
  lastPingTime : Nat
  nPingFailed : Nat
  syncTimeout : Bool
  connected_time : Nat
  isSeed : Bool
  address : NetAddr
  address_me_ : NetAddr
deriving DecidableEq, Repr

/-- `PeerManager::kMax_outbound` (= 8), from `src/net/peer_manager.h`. -/
def kMax_outbound : Nat := 8

/-- `PeerManager::kConnectionSetupTimeout` (= 3 * 60 s). -/
def kConnectionSetupTimeout : Nat := 3 * 60

/-- `PeerManager::kPingWaitTimeout` (= 3 * 60 s). -/
def kPingWaitTimeout : Nat := 3 * 60

/-- `PeerManager::kMaxPingFailures` (= 3). -/
def kMaxPingFailures : Nat := 3

/-- What the `CheckTimeout` sweep does with one peer. -/
inductive SweepAction where
  | keep
  | removeOnly
  | disconnectRemove
deriving DecidableEq, Repr

/-- The per-peer decision of `PeerManager::CheckTimeout`, mirroring the
branch structure of the source: invalid peers are erased without a
`Disconnect()` call; fully-connected peers are checked for ping timeout, ping
failures, then sync timeout; other peers for version-handshake timeout. -/
def checkTimeoutAction (p : Peer) (now : Nat) : SweepAction :=
  if ¬ p.isVaild then .removeOnly
  else if p.isFullyConnected then
    if p.lastPingTime + kPingWaitTimeout < now ∨ p.nPingFailed > kMaxPingFailures then
      .disconnectRemove
    else if p.syncTimeout then .disconnectRemove
    else .keep
  else if p.connected_time + kConnectionSetupTimeout < now then .disconnectRemove
  else .keep

/-- The peers remaining in the peer map after one `CheckTimeout` sweep. -/
def CheckTimeout (peers : List Peer) (now : Nat) : List Peer :=
  peers.filter fun p => checkTimeoutAction p now = .keep

/-- `PeerManager::HasConnectedTo`: some peer's remote `address` or
peer-reported `address_me_` equals the queried address. -/
def HasConnectedTo (peers : List Peer) (a : NetAddr) : Bool :=
  peers.any fun p => a = p.address ∨ a = p.address_me_

/-- Outcome of `PeerManager::ProcessAddressMessage` on one ADDR message:
which addresses were added to the address book (in order), the list relayed
(if `RelayAddressMsg` was called), and whether the sending peer was
disconnected. -/
structure AddrMsgResult where
  added : List NetAddr
  relayed : Option (List NetAddr)
  disconnected : Bool
deriving DecidableEq, Repr

/-- `PeerManager::ProcessAddressMessage`. `kMaxAddressSize` (a constant of the
collaborating `AddressMessage` class, not under `src/`) and
`NetAddress::IsRoutable` are parameters.  An oversized list is dropped
wholesale; otherwise every routable address is added to the address book and
collected into the relay message, which is relayed when non-empty.  In both
cases a seed peer is disconnected afterwards. -/
def ProcessAddressMessage (kMaxAddressSize : Nat) (routable : NetAddr → Bool)
    (addressList : List NetAddr) (peerIsSeed : Bool) : AddrMsgResult :=
  if addressList.length > kMaxAddressSize then
    { added := [], relayed := none, disconnected := peerIsSeed }
  else
    let relayList := addressList.filter routable
    { added := relayList
      relayed := if relayList.isEmpty then none else some relayList
      disconnected := peerIsSeed }

/-- Unsigned 64-bit subtraction, as in `now - lastTry` on `uint64_t`. -/
def u64sub (a b : Nat) : Nat :=
  (2 ^ 64 + a - b) % 2 ^ 64

/-- The address-scanning inner loop of `PeerManager::OpenConnection` (at most
100 tries): skip addresses already connected to and addresses tried within the
last 120 s; dial the first acceptable one and stop.  `candidates` models the
successive answers of `AddressManager::GetOneAddress` (list end = empty
optional, which breaks the loop). -/
def findDialCandidate (connected : NetAddr → Bool) (lastTry : NetAddr → Nat) (now : Nat) :
    List NetAddr → List NetAddr
  | [] => []
  | a :: rest =>
    if connected a then findDialCandidate connected lastTry now rest
    else if u64sub now (lastTry a) < 120 then findDialCandidate connected lastTry now rest
    else [a]

/-- One iteration of the `PeerManager::OpenConnection` loop (after the 1 s
sleep): the addresses dialed in this iteration.  If the current outbound count
exceeds `kMax_outbound` the iteration does nothing; otherwise it dials the
seed (if the address manager yields one) and at most one known address. -/
def openConnectionIter (outboundNum : Nat) (seed : Option NetAddr)
    (candidates : List NetAddr) (connected : NetAddr → Bool) (lastTry : NetAddr → Nat)
    (now : Nat) : List NetAddr :=
  if outboundNum > kMax_outbound then []
  else seed.toList ++ findDialCandidate connected lastTry now (candidates.take 100)

/-- An example peer: valid, fully connected, never pinged, connected at time 0. -/
def exPeer : Peer :=
  ⟨true, true, 0, 0, false, 0, false, ⟨1, 1⟩, ⟨2, 2⟩⟩

/-- Invariant: every binding of `block_dep_map_` maps a hash to a stored dep
whose block's own hash is that key. -/
def KeyMatches (s : Obc) : Prop :=
  ∀ p ∈ s.bmap, ∃ d : Dep, s.store[p.2]? = some d ∧ d.block.hash = p.1

/-- Invariant: no hash is simultaneously a key of `lose_ends_` and a key of
`block_dep_map_` (the disjointness direction of the spec's lose-end
invariant). -/
def LoseDisjoint (s : Obc) : Prop :=
  ∀ h v, (h, v) ∈ s.lose → ∀ w, (h, w) ∉ s.bmap

/-- Number of occurrences of dep id `i` across the `lose_ends_` value sets. -/
def loseOcc (s : Obc) (i : Nat) : Nat :=
  (s.lose.map (fun p => p.2.count i)).sum

/-- Number of occurrences of dep id `i` across the `deps` lists of the deps
currently bound in `block_dep_map_`. -/
def depOcc (s : Obc) (i : Nat) : Nat :=
  (s.bmap.map (fun p =>
    match s.store[p.2]? with
    | some d => d.deps.count i
    | none => 0)).sum

/-- Total number of live registrations of dep id `i`: lose ends, `deps` lists
of map-bound deps, and the current work stack. -/
def occ (s : Obc) (stk : List Nat) (i : Nat) : Nat :=
  loseOcc s i + depOcc s i + stk.count i

/-- A dep id `i` is alive when some `block_dep_map_` binding points at it. -/
def Alive (s : Obc) (i : Nat) : Prop :=
  ∃ h, (h, i) ∈ s.bmap

/-- Shape of the (ndeps, registration-count) pair of a dep that has already
been released: at most two stale registrations remain (from duplicate parent
fields), and the wrapped unsigned counter stays far above zero, so a released
dep can never pass the release test again. -/
def DeadShape (n c : Nat) : Prop :=
  (n = 0 ∧ c ≤ 2) ∨ (n = 255 ∧ c ≤ 1) ∨ (n = 254 ∧ c = 0)

/-- The well-formedness invariant maintained by every reachable state (with
work stack `stk`, empty between calls) under the fresh-hash precondition. -/
structure WF (s : Obc) (stk : List Nat) : Prop where
  keysNodup : (s.bmap.map Prod.fst).Nodup
  km : KeyMatches s
  hashInj : ∀ i j : Nat, ∀ di dj : Dep, s.store[i]? = some di → s.store[j]? = some dj →
    i ≠ j → di.block.hash ≠ dj.block.hash
  loseIds : ∀ p ∈ s.lose, ∀ i ∈ p.2, i < s.store.length
  depsIds : ∀ j : Nat, ∀ d : Dep, s.store[j]? = some d → ∀ i ∈ d.deps, i < s.store.length
  aliveAcct : ∀ i : Nat, ∀ d : Dep, s.store[i]? = some d → Alive s i →
    occ s stk i ≤ d.ndeps + 2 ∧ (d.ndeps = 0 → occ s stk i = 0)
  deadAcct : ∀ i : Nat, ∀ d : Dep, s.store[i]? = some d → ¬ Alive s i →
    DeadShape d.ndeps (occ s stk i)

/-- Accumulator invariant: the blocks released so far are pairwise distinct,
and each is the block of a stored dep that is no longer map-bound (dead), so
it can never be released again. -/
def AccInv (s : Obc) (acc : List Block) : Prop :=
  acc.Nodup ∧ ∀ b ∈ acc, ∃ i : Nat, ∃ d : Dep, s.store[i]? = some d ∧ d.block = b ∧
    ∀ h0, (h0, i) ∉ s.bmap

/-! ## Basic lemmas about the association-list operations -/

theorem alookup_nil {α : Type} (h : Nat) : alookup ([] : List (Nat × α)) h = none := rfl

theorem alookup_cons {α : Type} (k : Nat) (v : α) (t : List (Nat × α)) (h : Nat) :
    alookup ((k, v) :: t) h = if k = h then some v else alookup t h := rfl

theorem aset_nil {α : Type} (k : Nat) (v : α) : aset ([] : List (Nat × α)) k v = [(k, v)] := rfl

theorem aset_cons {α : Type} (k' : Nat) (v' : α) (t : List (Nat × α)) (k : Nat) (v : α) :
    aset ((k', v') :: t) k v =
      if k' = k then (k, v) :: t else (k', v') :: aset t k v := rfl

theorem aerase_nil {α : Type} (k : Nat) : aerase ([] : List (Nat × α)) k = [] := rfl

theorem aerase_cons {α : Type} (k' : Nat) (v' : α) (t : List (Nat × α)) (k : Nat) :
    aerase ((k', v') :: t) k = if k' = k then t else (k', v') :: aerase t k := rfl

theorem alookup_aset {α : Type} (m : List (Nat × α)) (k : Nat) (v : α) (j : Nat) :
    alookup (aset m k v) j = if k = j then some v else alookup m j := by
  induction m with
  | nil =>
    by_cases hj : k = j <;> simp [aset_nil, alookup_cons, alookup_nil, hj]
  | cons p t ih =>
    rcases p with ⟨k', v'⟩
    by_cases hk : k' = k
    · subst hk
      rw [aset_cons, if_pos rfl, alookup_cons, alookup_cons]
      by_cases hj : k' = j <;> simp [hj]
    · rw [aset_cons, if_neg hk, alookup_cons, alookup_cons, ih]
      by_cases hj : k' = j
      · subst hj
        have hkj : ¬ k = k' := fun hh => hk hh.symm
        simp [hkj]
      · simp [hj]

theorem mem_aset {α : Type} {m : List (Nat × α)} {k : Nat} {v : α} {p : Nat × α}
    (hp : p ∈ aset m k v) : p = (k, v) ∨ p ∈ m := by
  induction m with
  | nil =>
    rw [aset_nil] at hp
    exact Or.inl (List.mem_singleton.mp hp)
  | cons q t ih =>
    rcases q with ⟨k', v'⟩
    by_cases hk : k' = k
    · rw [aset_cons, if_pos hk] at hp
      rcases List.mem_cons.mp hp with hp | hp
      · exact Or.inl hp
      · exact Or.inr (List.mem_cons_of_mem _ hp)
    · rw [aset_cons, if_neg hk] at hp
      rcases List.mem_cons.mp hp with hp | hp
      · exact Or.inr (List.mem_cons.mpr (Or.inl hp))
      · rcases ih hp with hp | hp
        · exact Or.inl hp
        · exact Or.inr (List.mem_cons_of_mem _ hp)

theorem mem_aerase {α : Type} {m : List (Nat × α)} {k : Nat} {p : Nat × α}
    (hp : p ∈ aerase m k) : p ∈ m := by
  induction m with
  | nil =>
    rw [aerase_nil] at hp
    exact absurd hp (List.not_mem_nil p)
  | cons q t ih =>
    rcases q with ⟨k', v'⟩
    by_cases hk : k' = k
    · rw [aerase_cons, if_pos hk] at hp
      exact List.mem_cons_of_mem _ hp
    · rw [aerase_cons, if_neg hk] at hp
      rcases List.mem_cons.mp hp with hp | hp
      · exact List.mem_cons.mpr (Or.inl hp)
      · exact List.mem_cons_of_mem _ (ih hp)

theorem alookup_eq_none_iff {α : Type} (m : List (Nat × α)) (h : Nat) :
    alookup m h = none ↔ ∀ v, (h, v) ∉ m := by
  induction m with
  | nil => simp [alookup_nil]
  | cons p t ih =>
    rcases p with ⟨k, v'⟩
    rw [alookup_cons]
    by_cases hk : k = h
    · subst hk
      rw [if_pos rfl]
      exact iff_of_false (by simp) (fun hall => hall v' (List.mem_cons.mpr (Or.inl rfl)))
    · rw [if_neg hk, ih]
      constructor
      · intro hall v hv
        rcases List.mem_cons.mp hv with hv | hv
        · exact hk (congrArg Prod.fst hv).symm
        · exact hall v hv
      · intro hall v hv
        exact hall v (List.mem_cons_of_mem _ hv)

theorem mem_of_alookup_eq_some {α : Type} {m : List (Nat × α)} {h : Nat} {v : α}
    (hm : alookup m h = some v) : (h, v) ∈ m := by
  induction m with
  | nil => exact absurd hm (by rw [alookup_nil]; exact fun hh => Option.noConfusion hh)
  | cons p t ih =>
    rcases p with ⟨k, v'⟩
    rw [alookup_cons] at hm
    by_cases hk : k = h
    · subst hk
      rw [if_pos rfl] at hm
      injection hm with hv
      subst hv
      exact List.mem_cons.mpr (Or.inl rfl)
    · rw [if_neg hk] at hm
      exact List.mem_cons_of_mem _ (ih hm)

theorem isSome_alookup_iff {α : Type} (m : List (Nat × α)) (h : Nat) :
    (alookup m h).isSome = true ↔ ∃ v, (h, v) ∈ m := by
  constructor
  · intro hs
    rcases Option.isSome_iff_exists.mp hs with ⟨v, hv⟩
    exact ⟨v, mem_of_alookup_eq_some hv⟩
  · intro hv
    cases hl : alookup m h with
    | some v => simp
    | none =>
      rcases hv with ⟨v, hv⟩
      exact absurd hv ((alookup_eq_none_iff m h).mp hl v)

/-! ## Lemmas about the store updates -/

theorem updDep_getElem_self {st : List Dep} {i : Nat} {d : Dep} (f : Dep → Dep)
    (hd : st[i]? = some d) : (updDep st i f)[i]? = some (f d) := by
  obtain ⟨hlt, -⟩ := List.getElem?_eq_some_iff.mp hd
  unfold updDep
  rw [hd]
  exact List.getElem?_set_self (by simpa using hlt)

theorem updDep_block_eq (st : List Dep) (e : Nat) (f : Dep → Dep)
    (hf : ∀ d, (f d).block = d.block) (i : Nat) :
    ((updDep st e f)[i]?).map Dep.block = (st[i]?).map Dep.block := by
  unfold updDep
  cases hst : st[e]? with
  | none => rfl
  | some d =>
    by_cases hie : e = i
    · subst hie
      obtain ⟨hlt, -⟩ := List.getElem?_eq_some_iff.mp hst
      rw [List.getElem?_set_self (by simpa using hlt), hst]
      simp [hf]
    · rw [List.getElem?_set_ne hie]

theorem commonInsert_eq_of_bmap_some {i h : Nat} {s : Obc} {e : Nat}
    (hb : alookup s.bmap h = some e) :
    commonInsert i h s =
      { s with store := updDep s.store e fun d => { d with deps := d.deps ++ [i] } } := by
  unfold commonInsert
  rw [hb]

theorem commonInsert_eq_of_bmap_none {i h : Nat} {s : Obc}
    (hb : alookup s.bmap h = none) :
    commonInsert i h s =
      { s with lose := aset s.lose h (sinsert i ((alookup s.lose h).getD [])) } := by
  unfold commonInsert
  rw [hb]

theorem commonInsert_block_eq (i h : Nat) (s : Obc) (j : Nat) :
    (((commonInsert i h s).store)[j]?).map Dep.block = ((s.store)[j]?).map Dep.block := by
  cases hb : alookup s.bmap h with
  | none => rw [commonInsert_eq_of_bmap_none hb]
  | some e =>
    rw [commonInsert_eq_of_bmap_some hb]
    exact updDep_block_eq s.store e (fun d => { d with deps := d.deps ++ [i] }) (fun _ => rfl) j

theorem commonInsert_bmap (i h : Nat) (s : Obc) :
    (commonInsert i h s).bmap = s.bmap := by
  cases hb : alookup s.bmap h with
  | none => rw [commonInsert_eq_of_bmap_none hb]
  | some e => rw [commonInsert_eq_of_bmap_some hb]

theorem addBlockInserts_block_eq (i : Nat) (b : Block) (mask : Nat) (s : Obc) (j : Nat) :
    (((addBlockInserts i b mask s).store)[j]?).map Dep.block = ((s.store)[j]?).map Dep.block := by
  unfold addBlockInserts
  cases maskM mask <;> cases maskT mask <;> cases maskP mask <;>
    simp [commonInsert_block_eq]

theorem addBlockInserts_bmap (i : Nat) (b : Block) (mask : Nat) (s : Obc) :
    (addBlockInserts i b mask s).bmap = s.bmap := by
  unfold addBlockInserts
  cases maskM mask <;> cases maskT mask <;> cases maskP mask <;>
    simp [commonInsert_bmap]

/-! ## Lemmas about AddBlock as a whole -/

theorem addBlock_bmap (s : Obc) (b : Block) (mask : Nat) (hm : mask ≠ 0) :
    (AddBlock s b mask).bmap = aset s.bmap b.hash s.store.length := by
  simp only [AddBlock, if_neg hm]
  rw [addBlockInserts_bmap]
  rfl

theorem addBlock_new_dep (s : Obc) (b : Block) (mask : Nat) (hm : mask ≠ 0) :
    ∃ d : Dep, (AddBlock s b mask).store[s.store.length]? = some d ∧ d.block = b ∧
      d.ndeps = (maskedParents b mask).dedup.length := by
  simp only [AddBlock, if_neg hm]
  have h1 : (addBlockBase s b).store[s.store.length]? = some ⟨b, 0, []⟩ :=
    List.getElem?_concat_length _ _
  have h3 : (((addBlockInserts s.store.length b mask
      (addBlockBase s b)).store)[s.store.length]?).map Dep.block = some b := by
    rw [addBlockInserts_block_eq, h1]
    rfl
  obtain ⟨d4, hd4, hb4⟩ : ∃ d4, (addBlockInserts s.store.length b mask
      (addBlockBase s b)).store[s.store.length]? = some d4 ∧ d4.block = b := by
    cases hx : (addBlockInserts s.store.length b mask
        (addBlockBase s b)).store[s.store.length]? with
    | none => rw [hx] at h3; exact absurd h3 (by simp)
    | some d4 =>
      rw [hx] at h3
      exact ⟨d4, rfl, by simpa using h3⟩
  refine ⟨{ d4 with ndeps := (maskedParents b mask).dedup.length }, ?_, hb4, rfl⟩
  exact updDep_getElem_self _ hd4

theorem addBlock_block_eq_old (s : Obc) (b : Block) (mask : Nat) (j : Nat)
    (hj : j < s.store.length) :
    ((AddBlock s b mask).store[j]?).map Dep.block = (s.store[j]?).map Dep.block := by
  by_cases hm : mask = 0
  · rw [hm]
    rfl
  · simp only [AddBlock, if_neg hm]
    have hup := updDep_block_eq
      (addBlockInserts s.store.length b mask (addBlockBase s b)).store s.store.length
      (fun d => { d with ndeps := (maskedParents b mask).dedup.length }) (fun _ => rfl) j
    rw [hup, addBlockInserts_block_eq]
    show ((s.store ++ [(⟨b, 0, []⟩ : Dep)])[j]?).map Dep.block = (s.store[j]?).map Dep.block
    rw [List.getElem?_append_left hj]

/-! ## Reduction lemmas for the SubmitHash loop -/

theorem submitLoop_zero (s : Obc) (stk : List Nat) (acc : List Block) :
    submitLoop 0 s stk acc = (s, acc) := rfl

theorem submitLoop_nil (fuel : Nat) (s : Obc) (acc : List Block) :
    submitLoop (fuel + 1) s [] acc = (s, acc) := rfl

theorem submitLoop_cons_none {s : Obc} {i : Nat} (fuel : Nat) (stk : List Nat)
    (acc : List Block) (hx : s.store[i]? = none) :
    submitLoop (fuel + 1) s (i :: stk) acc = submitLoop fuel s stk acc := by
  rw [submitLoop, hx]

theorem submitLoop_cons_cont {s : Obc} {i : Nat} {d : Dep} (fuel : Nat) (stk : List Nat)
    (acc : List Block) (hx : s.store[i]? = some d) (hn : decWrap d.ndeps > 0) :
    submitLoop (fuel + 1) s (i :: stk) acc =
      submitLoop fuel ⟨s.store.set i { d with ndeps := decWrap d.ndeps }, s.bmap, s.lose⟩
        stk acc := by
  rw [submitLoop, hx]
  exact if_pos hn

theorem submitLoop_cons_emit {s : Obc} {i : Nat} {d : Dep} (fuel : Nat) (stk : List Nat)
    (acc : List Block) (hx : s.store[i]? = some d) (hn : ¬ decWrap d.ndeps > 0) :
    submitLoop (fuel + 1) s (i :: stk) acc =
      submitLoop fuel
        ⟨s.store.set i { d with ndeps := decWrap d.ndeps }, aerase s.bmap d.block.hash, s.lose⟩
        (d.deps.reverse ++ stk) (acc ++ [d.block]) := by
  rw [submitLoop, hx]
  exact if_neg hn

theorem submitHash_eq_of_not_awaited {s : Obc} {h : Nat}
    (hn : alookup s.lose h = none) : SubmitHash s h = (s, none) := by
  unfold SubmitHash
  rw [hn]

theorem submitHash_eq_of_awaited {s : Obc} {h : Nat} {waiting : List Nat}
    (hl : alookup s.lose h = some waiting) :
    SubmitHash s h = ((submitHashRun s h waiting).1, some (submitHashRun s h waiting).2) := by
  unfold SubmitHash
  rw [hl]

/-! ## Preservation of the key-correctness invariant -/

theorem set_block_eq {st : List Dep} {i : Nat} {d : Dep} (d' : Dep) (hd : st[i]? = some d)
    (hbl : d'.block = d.block) (j : Nat) :
    ((st.set i d')[j]?).map Dep.block = (st[j]?).map Dep.block := by
  by_cases hij : i = j
  · subst hij
    obtain ⟨hlt, -⟩ := List.getElem?_eq_some_iff.mp hd
    rw [List.getElem?_set_self (by simpa using hlt), hd]
    simp [hbl]
  · rw [List.getElem?_set_ne hij]

theorem getElem_block_of_map_eq {stA stB : List Dep} {j : Nat} {d : Dep}
    (heq : (stA[j]?).map Dep.block = (stB[j]?).map Dep.block) (hd : stB[j]? = some d) :
    ∃ d', stA[j]? = some d' ∧ d'.block = d.block := by
  rw [hd] at heq
  cases hx : stA[j]? with
  | none => rw [hx] at heq; exact absurd heq (by simp)
  | some d' =>
    rw [hx] at heq
    exact ⟨d', rfl, by simpa using heq⟩

theorem keyMatches_of (sA sB : Obc) (hb : ∀ p ∈ sA.bmap, p ∈ sB.bmap)
    (hst : ∀ j : Nat, (sA.store[j]?).map Dep.block = (sB.store[j]?).map Dep.block)
    (h : KeyMatches sB) : KeyMatches sA := by
  intro p hp
  obtain ⟨d, hd, hh⟩ := h p (hb p hp)
  obtain ⟨d', hd', hbl⟩ := getElem_block_of_map_eq (hst p.2) hd
  exact ⟨d', hd', by rw [hbl]; exact hh⟩

theorem keyMatches_addBlock {s : Obc} (b : Block) (mask : Nat) (h : KeyMatches s) :
    KeyMatches (AddBlock s b mask) := by
  by_cases hm : mask = 0
  · simp only [AddBlock, if_pos hm]
    exact h
  · intro p hp
    rw [addBlock_bmap s b mask hm] at hp
    rcases mem_aset hp with hpe | hpo
    · obtain ⟨d, hd, hb, -⟩ := addBlock_new_dep s b mask hm
      subst hpe
      exact ⟨d, hd, by rw [hb]⟩
    · obtain ⟨d, hd, hh⟩ := h p hpo
      have hj : p.2 < s.store.length := (List.getElem?_eq_some_iff.mp hd).1
      obtain ⟨d', hd', hbl⟩ :=
        getElem_block_of_map_eq (addBlock_block_eq_old s b mask p.2 hj) hd
      exact ⟨d', hd', by rw [hbl]; exact hh⟩

theorem keyMatches_submitLoop (fuel : Nat) : ∀ (s : Obc) (stk : List Nat) (acc : List Block),
    KeyMatches s → KeyMatches (submitLoop fuel s stk acc).1 := by
  induction fuel with
  | zero => exact fun s stk acc h => h
  | succ fuel ih =>
    intro s stk acc h
    cases stk with
    | nil => exact h
    | cons i stk =>
      cases hx : s.store[i]? with
      | none =>
        rw [submitLoop_cons_none fuel stk acc hx]
        exact ih _ _ _ h
      | some d =>
        by_cases hn : decWrap d.ndeps > 0
        · rw [submitLoop_cons_cont fuel stk acc hx hn]
          exact ih _ _ _
            (keyMatches_of ⟨s.store.set i { d with ndeps := decWrap d.ndeps }, s.bmap, s.lose⟩ s
              (fun p hp => hp)
              (fun j => set_block_eq { d with ndeps := decWrap d.ndeps } hx rfl j) h)
        · rw [submitLoop_cons_emit fuel stk acc hx hn]
          exact ih _ _ _
            (keyMatches_of
              ⟨s.store.set i { d with ndeps := decWrap d.ndeps }, aerase s.bmap d.block.hash,
                s.lose⟩ s
              (fun p hp => mem_aerase hp)
              (fun j => set_block_eq { d with ndeps := decWrap d.ndeps } hx rfl j) h)

theorem keyMatches_submitHash (s : Obc) (h : Nat) (hk : KeyMatches s) :
    KeyMatches (SubmitHash s h).1 := by
  cases hl : alookup s.lose h with
  | none =>
    rw [submitHash_eq_of_not_awaited hl]
    exact hk
  | some waiting =>
    rw [submitHash_eq_of_awaited hl]
    exact keyMatches_submitLoop _ _ _ _ hk

theorem keyMatches_runFrom : ∀ (cs : List Call) (s : Obc) (log : List Block),
    KeyMatches s → KeyMatches (runFrom s log cs).1 := by
  intro cs
  induction cs with
  | nil => exact fun s log h => h
  | cons c cs ih =>
    intro s log h
    cases c with
    | add b m => exact ih _ _ (keyMatches_addBlock b m h)
    | submit hh => exact ih _ _ (keyMatches_submitHash _ hh h)

theorem keyMatches_run (cs : List Call) : KeyMatches (run cs).1 :=
  keyMatches_runFrom cs obc0 [] (fun p hp => absurd hp (List.not_mem_nil p))

/-! ## Preservation of the lose-end disjointness invariant -/

theorem loseDisjoint_ite (c : Prop) [Decidable c] (f : Obc → Obc) {s : Obc}
    (hf : ∀ t, LoseDisjoint t → LoseDisjoint (f t)) (hd : LoseDisjoint s) :
    LoseDisjoint (if c then f s else s) := by
  by_cases hc : c
  · rw [if_pos hc]
    exact hf s hd
  · rw [if_neg hc]
    exact hd

theorem loseDisjoint_commonInsert {s : Obc} (i h0 : Nat) (hd : LoseDisjoint s) :
    LoseDisjoint (commonInsert i h0 s) := by
  cases hb : alookup s.bmap h0 with
  | some e =>
    rw [commonInsert_eq_of_bmap_some hb]
    exact fun h v hv w hw => hd h v hv w hw
  | none =>
    rw [commonInsert_eq_of_bmap_none hb]
    intro h v hv w hw
    rcases mem_aset hv with he | ho
    · have hhb : h = h0 := congrArg Prod.fst he
      subst hhb
      exact (alookup_eq_none_iff s.bmap h).mp hb w hw
    · exact hd h v ho w hw

theorem loseDisjoint_addBlockInserts (i : Nat) (b : Block) (mask : Nat) {s : Obc}
    (hd : LoseDisjoint s) : LoseDisjoint (addBlockInserts i b mask s) := by
  unfold addBlockInserts
  exact loseDisjoint_ite _ _ (fun t ht => loseDisjoint_commonInsert _ _ ht)
    (loseDisjoint_ite _ _ (fun t ht => loseDisjoint_commonInsert _ _ ht)
      (loseDisjoint_ite _ _ (fun t ht => loseDisjoint_commonInsert _ _ ht) hd))

theorem loseDisjoint_addBlock {s : Obc} (b : Block) (mask : Nat)
    (hpre : alookup s.lose b.hash = none) (hd : LoseDisjoint s) :
    LoseDisjoint (AddBlock s b mask) := by
  by_cases hm : mask = 0
  · simp only [AddBlock, if_pos hm]
    exact hd
  · simp only [AddBlock, if_neg hm]
    have h1 : LoseDisjoint (addBlockBase s b) := by
      intro h v hv w hw
      rcases mem_aset hw with he | ho
      · have hhb : h = b.hash := congrArg Prod.fst he
        rw [hhb] at hv
        exact (alookup_eq_none_iff s.lose b.hash).mp hpre v hv
      · exact hd h v hv w ho
    exact loseDisjoint_addBlockInserts _ b mask h1

theorem loseDisjoint_submitLoop (fuel : Nat) : ∀ (s : Obc) (stk : List Nat) (acc : List Block),
    LoseDisjoint s → LoseDisjoint (submitLoop fuel s stk acc).1 := by
  induction fuel with
  | zero => exact fun s stk acc h => h
  | succ fuel ih =>
    intro s stk acc h
    cases stk with
    | nil => exact h
    | cons i stk =>
      cases hx : s.store[i]? with
      | none =>
        rw [submitLoop_cons_none fuel stk acc hx]
        exact ih _ _ _ h
      | some d =>
        by_cases hn : decWrap d.ndeps > 0
        · rw [submitLoop_cons_cont fuel stk acc hx hn]
          exact ih _ _ _ h
        · rw [submitLoop_cons_emit fuel stk acc hx hn]
          exact ih _ _ _ (fun h0 v hv w hw => h h0 v hv w (mem_aerase hw))

theorem loseDisjoint_submitHash (s : Obc) (h : Nat) (hd : LoseDisjoint s) :
    LoseDisjoint (SubmitHash s h).1 := by
  cases hl : alookup s.lose h with
  | none =>
    rw [submitHash_eq_of_not_awaited hl]
    exact hd
  | some waiting =>
    rw [submitHash_eq_of_awaited hl]
    exact loseDisjoint_submitLoop _ _ _ _ (fun h0 v hv w hw => hd h0 v (mem_aerase hv) w hw)

theorem loseDisjoint_runFrom : ∀ (cs : List Call) (s : Obc) (log : List Block),
    loseOkSeq s cs = true → LoseDisjoint s → LoseDisjoint (runFrom s log cs).1 := by
  intro cs
  induction cs with
  | nil => exact fun s log _ h => h
  | cons c cs ih =>
    intro s log hok h
    cases c with
    | add b m =>
      simp only [loseOkSeq, Bool.and_eq_true] at hok
      exact ih _ _ hok.2 (loseDisjoint_addBlock b m (Option.isNone_iff_eq_none.mp hok.1) h)
    | submit hh =>
      simp only [loseOkSeq] at hok
      exact ih _ _ hok (loseDisjoint_submitHash _ hh h)

/-! ## Decomposition lemmas for the association-list operations -/

theorem aset_of_alookup_none {α : Type} {m : List (Nat × α)} {k : Nat}
    (hl : alookup m k = none) (v : α) : aset m k v = m ++ [(k, v)] := by
  induction m with
  | nil => rfl
  | cons p t ih =>
    rcases p with ⟨k', v'⟩
    rw [alookup_cons] at hl
    by_cases hk : k' = k
    · rw [if_pos hk] at hl
      exact absurd hl (by simp)
    · rw [if_neg hk] at hl
      rw [aset_cons, if_neg hk, ih hl]
      rfl

theorem aerase_of_alookup_none {α : Type} {m : List (Nat × α)} {k : Nat}
    (hl : alookup m k = none) : aerase m k = m := by
  induction m with
  | nil => rfl
  | cons p t ih =>
    rcases p with ⟨k', v'⟩
    rw [alookup_cons] at hl
    by_cases hk : k' = k
    · rw [if_pos hk] at hl
      exact absurd hl (by simp)
    · rw [if_neg hk] at hl
      rw [aerase_cons, if_neg hk, ih hl]

theorem alookup_decomp {α : Type} {m : List (Nat × α)} {k : Nat} {w : α}
    (hl : alookup m k = some w) :
    ∃ m1 m2, m = m1 ++ (k, w) :: m2 ∧ alookup m1 k = none ∧
      aerase m k = m1 ++ m2 ∧ (∀ v, aset m k v = m1 ++ (k, v) :: m2) := by
  induction m with
  | nil => exact absurd hl (by rw [alookup_nil]; exact fun hh => Option.noConfusion hh)
  | cons p t ih =>
    rcases p with ⟨k', v'⟩
    rw [alookup_cons] at hl
    by_cases hk : k' = k
    · rw [if_pos hk] at hl
      injection hl with hw
      subst hk
      subst hw
      refine ⟨[], t, rfl, rfl, ?_, ?_⟩
      · rw [aerase_cons, if_pos rfl]
        rfl
      · intro v
        rw [aset_cons, if_pos rfl]
        rfl
    · rw [if_neg hk] at hl
      obtain ⟨m1, m2, hm, hl1, he, hs⟩ := ih hl
      refine ⟨(k', v') :: m1, m2, by rw [hm]; rfl, ?_, ?_, ?_⟩
      · rw [alookup_cons, if_neg hk, hl1]
      · rw [aerase_cons, if_neg hk, he]
        rfl
      · intro v
        rw [aset_cons, if_neg hk, hs v]
        rfl

theorem alookup_eq_of_mem_of_keysNodup {α : Type} {m : List (Nat × α)}
    (hn : (m.map Prod.fst).Nodup) {k : Nat} {v : α} (hm : (k, v) ∈ m) :
    alookup m k = some v := by
  induction m with
  | nil => cases hm
  | cons p t ih =>
    rcases p with ⟨k', v'⟩
    rw [List.map_cons, List.nodup_cons] at hn
    rw [alookup_cons]
    rcases List.mem_cons.mp hm with he | hmem
    · have h1 : k = k' := congrArg Prod.fst he
      have h2 : v = v' := congrArg Prod.snd he
      rw [if_pos h1.symm, h2]
    · by_cases hk : k' = k
      · exact absurd (List.mem_map.mpr ⟨(k, v), hmem, hk.symm⟩) hn.1
      · rw [if_neg hk]
        exact ih hn.2 hmem

/-! ## Uniqueness of block_dep_map bindings pointing at a dep -/

theorem alive_binding_eq {s : Obc} (hkm : KeyMatches s) {i : Nat} {d : Dep}
    (hd : s.store[i]? = some d) {h : Nat} (hm : (h, i) ∈ s.bmap) : h = d.block.hash := by
  obtain ⟨d', hd', hh⟩ := hkm _ hm
  have hh2 : d'.block.hash = h := hh
  have hd2 : s.store[i]? = some d' := hd'
  rw [hd] at hd2
  injection hd2 with he
  rw [← hh2, he]

theorem no_other_value_binding {s : Obc} (hn : (s.bmap.map Prod.fst).Nodup)
    (hkm : KeyMatches s) {m1 m2 : List (Nat × Nat)} {key i : Nat}
    (hdec : s.bmap = m1 ++ (key, i) :: m2) :
    ∀ h', (h', i) ∉ m1 ++ m2 := by
  intro h' hmem
  have hmem' : (h', i) ∈ s.bmap := by
    rw [hdec]
    rcases List.mem_append.mp hmem with h1 | h2
    · exact List.mem_append.mpr (Or.inl h1)
    · exact List.mem_append.mpr (Or.inr (List.mem_cons_of_mem _ h2))
  have hkey : (key, i) ∈ s.bmap := by
    rw [hdec]
    exact List.mem_append.mpr (Or.inr (List.mem_cons_self _ _))
  obtain ⟨d1, hd1, hh1⟩ := hkm _ hmem'
  obtain ⟨d2, hd2, hh2⟩ := hkm _ hkey
  have hh1' : d1.block.hash = h' := hh1
  have hh2' : d2.block.hash = key := hh2
  have hd1' : s.store[i]? = some d1 := hd1
  have hd2' : s.store[i]? = some d2 := hd2
  rw [hd1'] at hd2'
  injection hd2' with hd12
  have hkh : h' = key := by rw [← hh1', ← hh2', hd12]
  subst hkh
  rw [hdec, List.map_append, List.map_cons] at hn
  rcases List.nodup_append.mp hn with ⟨hn1, hn2, hdisj⟩
  rcases List.mem_append.mp hmem with h1 | h2
  · exact hdisj (List.mem_map.mpr ⟨_, h1, rfl⟩) (List.mem_cons_self _ _)
  · exact (List.nodup_cons.mp hn2).1 (List.mem_map.mpr ⟨_, h2, rfl⟩)

/-! ## Counting lemmas for the registration measure -/

theorem count_cons_self_nat (i : Nat) (l : List Nat) : (i :: l).count i = l.count i + 1 := by
  simp [List.count_cons]

theorem count_cons_ne_nat {i j : Nat} (hij : i ≠ j) (l : List Nat) :
    (i :: l).count j = l.count j := by
  simp [List.count_cons, hij]

theorem count_sinsert_le (x j : Nat) (l : List Nat) :
    (sinsert x l).count j ≤ l.count j + 1 := by
  unfold sinsert
  by_cases hx : x ∈ l
  · rw [if_pos hx]
    exact Nat.le_succ _
  · rw [if_neg hx, List.count_append]
    by_cases hj : x = j
    · simp [hj]
    · simp [List.count_singleton, hj]

theorem count_sinsert_ne {x j : Nat} (hj : j ≠ x) (l : List Nat) :
    (sinsert x l).count j = l.count j := by
  unfold sinsert
  by_cases hx : x ∈ l
  · rw [if_pos hx]
  · rw [if_neg hx, List.count_append, List.count_singleton]
    have : ¬ x = j := fun hh => hj hh.symm
    simp [this]

theorem occ_setNdeps (s : Obc) (stk : List Nat) {i : Nat} {d : Dep}
    (hx : s.store[i]? = some d) (n : Nat) (j : Nat) :
    occ ⟨s.store.set i { d with ndeps := n }, s.bmap, s.lose⟩ stk j = occ s stk j := by
  have hlen : i < s.store.length := (List.getElem?_eq_some_iff.mp hx).1
  unfold occ loseOcc depOcc
  have hmap : ∀ p ∈ s.bmap,
      (match (s.store.set i { d with ndeps := n })[p.2]? with
        | some d' => d'.deps.count j
        | none => 0) =
      (match s.store[p.2]? with
        | some d' => d'.deps.count j
        | none => 0) := by
    intro p hp
    by_cases hpi : i = p.2
    · rw [← hpi, List.getElem?_set_self hlen, hx]
    · rw [List.getElem?_set_ne hpi]
  rw [List.map_congr_left hmap]

theorem occ_submitStart {s : Obc} {h : Nat} {waiting : List Nat}
    (hl : alookup s.lose h = some waiting) (j : Nat) :
    occ ⟨s.store, s.bmap, aerase s.lose h⟩ waiting.reverse j = occ s [] j := by
  obtain ⟨m1, m2, hm, -, he, -⟩ := alookup_decomp hl
  unfold occ loseOcc depOcc
  dsimp only
  rw [he, hm, List.map_append, List.sum_append, List.map_append, List.map_cons,
    List.sum_append, List.sum_cons, List.count_reverse, List.count_nil]
  dsimp only
  omega

theorem occ_emit {s : Obc} {i : Nat} {d : Dep} (hx : s.store[i]? = some d)
    (hn : (s.bmap.map Prod.fst).Nodup) (hkm : KeyMatches s)
    (hl : alookup s.bmap d.block.hash = some i) (stk : List Nat) (j : Nat) :
    occ ⟨s.store.set i { d with ndeps := decWrap d.ndeps }, aerase s.bmap d.block.hash, s.lose⟩
        (d.deps.reverse ++ stk) j + (if i = j then 1 else 0) = occ s (i :: stk) j := by
  have hlen : i < s.store.length := (List.getElem?_eq_some_iff.mp hx).1
  obtain ⟨m1, m2, hm, -, he, -⟩ := alookup_decomp hl
  have hno := no_other_value_binding hn hkm hm
  have hterm : ∀ p ∈ m1 ++ m2,
      (match (s.store.set i { d with ndeps := decWrap d.ndeps })[p.2]? with
        | some d' => d'.deps.count j
        | none => 0) =
      (match s.store[p.2]? with
        | some d' => d'.deps.count j
        | none => 0) := by
    intro p hp
    have hpi : i ≠ p.2 := by
      intro hip
      exact hno p.1 (by rw [← Prod.mk.eta (p := p), ← hip] at hp; exact hp)
    rw [List.getElem?_set_ne hpi]
  unfold occ loseOcc depOcc
  dsimp only
  rw [he, hm, List.map_append, List.sum_append, List.map_append, List.map_cons,
    List.sum_append, List.sum_cons, List.map_congr_left (fun p hp =>
      hterm p (List.mem_append.mpr (Or.inl hp))),
    List.map_congr_left (fun p hp => hterm p (List.mem_append.mpr (Or.inr hp))),
    hx, List.count_append, List.count_reverse]
  dsimp only
  by_cases hij : i = j
  · rw [if_pos hij, hij, count_cons_self_nat]
    omega
  · rw [if_neg hij, count_cons_ne_nat hij]
    omega

/-! ## Stack and shape monotonicity -/

theorem occ_pop_le (s : Obc) (i : Nat) (stk : List Nat) (j : Nat) :
    occ s stk j ≤ occ s (i :: stk) j := by
  unfold occ
  by_cases hij : i = j
  · rw [hij, count_cons_self_nat]
    omega
  · rw [count_cons_ne_nat hij]

theorem occ_pop_eq_self (s : Obc) (stk : List Nat) (i : Nat) :
    occ s (i :: stk) i = occ s stk i + 1 := by
  unfold occ
  rw [count_cons_self_nat]
  omega

theorem occ_pop_eq_ne (s : Obc) (stk : List Nat) {i j : Nat} (hij : i ≠ j) :
    occ s (i :: stk) j = occ s stk j := by
  unfold occ
  rw [count_cons_ne_nat hij]

theorem deadShape_mono {n c c' : Nat} (hc : c' ≤ c) (h : DeadShape n c) : DeadShape n c' := by
  rcases h with ⟨h1, h2⟩ | ⟨h1, h2⟩ | ⟨h1, h2⟩
  · exact Or.inl ⟨h1, le_trans hc h2⟩
  · exact Or.inr (Or.inl ⟨h1, le_trans hc h2⟩)
  · exact Or.inr (Or.inr ⟨h1, by omega⟩)

theorem hashInj_of (sA sB : Obc)
    (hst : ∀ j : Nat, (sA.store[j]?).map Dep.block = (sB.store[j]?).map Dep.block)
    (h : ∀ i j : Nat, ∀ di dj : Dep, sB.store[i]? = some di → sB.store[j]? = some dj →
      i ≠ j → di.block.hash ≠ dj.block.hash) :
    ∀ i j : Nat, ∀ di dj : Dep, sA.store[i]? = some di → sA.store[j]? = some dj →
      i ≠ j → di.block.hash ≠ dj.block.hash := by
  intro i j di dj hdi hdj hij
  have h1 := hst i
  have h2 := hst j
  rw [hdi] at h1
  rw [hdj] at h2
  cases hbi : sB.store[i]? with
  | none => rw [hbi] at h1; exact absurd h1 (by simp)
  | some dbi =>
    cases hbj : sB.store[j]? with
    | none => rw [hbj] at h2; exact absurd h2 (by simp)
    | some dbj =>
      rw [hbi] at h1
      rw [hbj] at h2
      have e1 : di.block = dbi.block := by simpa using h1
      have e2 : dj.block = dbj.block := by simpa using h2
      rw [e1, e2]
      exact h i j dbi dbj hbi hbj hij

theorem accInv_of (sA sB : Obc) (acc : List Block)
    (hb : ∀ p ∈ sA.bmap, p ∈ sB.bmap ∨ sB.store.length ≤ p.2)
    (hst : ∀ j : Nat, j < sB.store.length →
      (sA.store[j]?).map Dep.block = (sB.store[j]?).map Dep.block)
    (h : AccInv sB acc) : AccInv sA acc := by
  refine ⟨h.1, ?_⟩
  intro b hmemb
  obtain ⟨i, d, hd, hbd, hdead⟩ := h.2 b hmemb
  have hi : i < sB.store.length := (List.getElem?_eq_some_iff.mp hd).1
  obtain ⟨d', hd', hbl⟩ := getElem_block_of_map_eq (hst i hi) hd
  refine ⟨i, d', hd', by rw [hbl, hbd], ?_⟩
  intro h0 hh0
  rcases hb _ hh0 with hin | hge
  · exact hdead h0 hin
  · omega

theorem wf_pop {s : Obc} {i : Nat} {stk : List Nat} (h : WF s (i :: stk)) : WF s stk := by
  refine ⟨h.keysNodup, h.km, h.hashInj, h.loseIds, h.depsIds, ?_, ?_⟩
  · intro j d hd ha
    obtain ⟨h1, h2⟩ := h.aliveAcct j d hd ha
    have hle := occ_pop_le s i stk j
    exact ⟨le_trans hle h1, fun h0 => by have := h2 h0; omega⟩
  · intro j d hd ha
    exact deadShape_mono (occ_pop_le s i stk j) (h.deadAcct j d hd ha)

theorem wf_drop {s : Obc} : ∀ {stk : List Nat}, WF s stk → WF s [] := by
  intro stk
  induction stk with
  | nil => exact fun h => h
  | cons i stk ih => exact fun h => ih (wf_pop h)

/-! ## WF preservation along the SubmitHash loop steps -/

theorem wf_step_cont {s : Obc} {i : Nat} {d : Dep} {stk : List Nat}
    (hw : WF s (i :: stk)) (hx : s.store[i]? = some d) (hn : decWrap d.ndeps > 0) :
    WF ⟨s.store.set i { d with ndeps := decWrap d.ndeps }, s.bmap, s.lose⟩ stk := by
  have hlen : i < s.store.length := (List.getElem?_eq_some_iff.mp hx).1
  have hocc : ∀ j, occ ⟨s.store.set i { d with ndeps := decWrap d.ndeps }, s.bmap, s.lose⟩
      stk j = occ s stk j := occ_setNdeps s stk hx (decWrap d.ndeps)
  refine ⟨hw.keysNodup, ?_, ?_, ?_, ?_, ?_, ?_⟩
  · exact keyMatches_of _ s (fun p hp => hp)
      (fun j => set_block_eq { d with ndeps := decWrap d.ndeps } hx rfl j) hw.km
  · exact hashInj_of _ s
      (fun j => set_block_eq { d with ndeps := decWrap d.ndeps } hx rfl j) hw.hashInj
  · intro p hp i' hi'
    have := hw.loseIds p hp i' hi'
    simpa [List.length_set] using this
  · intro j d' hd' i' hi'
    rw [List.length_set]
    by_cases hji : i = j
    · subst hji
      rw [List.getElem?_set_self hlen] at hd'
      injection hd' with hdd
      rw [← hdd] at hi'
      exact hw.depsIds i d hx i' hi'
    · rw [List.getElem?_set_ne hji] at hd'
      exact hw.depsIds j d' hd' i' hi'
  · intro j d' hd' ha
    have haS : Alive s j := ha
    rw [hocc j]
    by_cases hji : i = j
    · subst hji
      rw [List.getElem?_set_self hlen] at hd'
      injection hd' with hdd
      obtain ⟨hle, hz⟩ := hw.aliveAcct i d hx haS
      have hpop := occ_pop_eq_self s stk i
      have hnz : d.ndeps ≠ 0 := by
        intro h0
        have := hz h0
        omega
      have hdec : decWrap d.ndeps = d.ndeps - 1 := by
        unfold decWrap
        rw [if_neg hnz]
      rw [← hdd]
      dsimp only
      constructor
      · omega
      · intro h0
        omega
    · rw [List.getElem?_set_ne hji] at hd'
      obtain ⟨hle, hz⟩ := hw.aliveAcct j d' hd' haS
      have hpop := occ_pop_eq_ne s stk hji
      exact ⟨by omega, fun h0 => by have := hz h0; omega⟩
  · intro j d' hd' ha
    have haS : ¬ Alive s j := ha
    rw [hocc j]
    by_cases hji : i = j
    · subst hji
      rw [List.getElem?_set_self hlen] at hd'
      injection hd' with hdd
      have hold := hw.deadAcct i d hx haS
      have hpop := occ_pop_eq_self s stk i
      rw [← hdd]
      dsimp only
      rcases hold with ⟨h1, h2⟩ | ⟨h1, h2⟩ | ⟨h1, h2⟩
      · rw [h1]
        unfold decWrap
        rw [if_pos rfl]
        exact Or.inr (Or.inl ⟨rfl, by omega⟩)
      · rw [h1]
        unfold decWrap
        rw [if_neg (by omega)]
        exact Or.inr (Or.inr ⟨rfl, by omega⟩)
      · omega
    · rw [List.getElem?_set_ne hji] at hd'
      have hold := hw.deadAcct j d' hd' haS
      have hpop := occ_pop_eq_ne s stk hji
      exact deadShape_mono (by omega) hold

theorem wf_step_emit {s : Obc} {i : Nat} {d : Dep} {stk : List Nat}
    (hw : WF s (i :: stk)) (hx : s.store[i]? = some d) (hn : ¬ decWrap d.ndeps > 0) :
    WF ⟨s.store.set i { d with ndeps := decWrap d.ndeps }, aerase s.bmap d.block.hash, s.lose⟩
        (d.deps.reverse ++ stk) ∧
      Alive s i ∧ (∀ h', (h', i) ∉ aerase s.bmap d.block.hash) := by
  have hlen : i < s.store.length := (List.getElem?_eq_some_iff.mp hx).1
  have hn0 : decWrap d.ndeps = 0 := by omega
  have hnd1 : d.ndeps = 1 := by
    unfold decWrap at hn0
    by_cases hz : d.ndeps = 0
    · rw [if_pos hz] at hn0
      exact absurd hn0 (by decide)
    · rw [if_neg hz] at hn0
      omega
  have halive : Alive s i := by
    by_contra hdead
    have := hw.deadAcct i d hx hdead
    rcases this with ⟨h1, -⟩ | ⟨h1, -⟩ | ⟨h1, -⟩ <;> omega
  obtain ⟨h0, hb0⟩ := halive
  have hkey : h0 = d.block.hash := alive_binding_eq hw.km hx hb0
  subst hkey
  have hl : alookup s.bmap d.block.hash = some i :=
    alookup_eq_of_mem_of_keysNodup hw.keysNodup hb0
  obtain ⟨m1, m2, hm, -, he, -⟩ := alookup_decomp hl
  have hno := no_other_value_binding hw.keysNodup hw.km hm
  have hdeadNew : ∀ h', (h', i) ∉ aerase s.bmap d.block.hash := by
    intro h' hh'
    rw [he] at hh'
    exact hno h' hh'
  have hoccE := occ_emit hx hw.keysNodup hw.km hl stk
  have hmemOld : ∀ {h' j : Nat}, (h', j) ∈ aerase s.bmap d.block.hash → (h', j) ∈ s.bmap :=
    fun hh' => mem_aerase hh'
  have hmemBack : ∀ {h' j : Nat}, j ≠ i → (h', j) ∈ s.bmap →
      (h', j) ∈ aerase s.bmap d.block.hash := by
    intro h' j hji hmemb
    rw [he]
    rw [hm] at hmemb
    rcases List.mem_append.mp hmemb with h1 | h2
    · exact List.mem_append.mpr (Or.inl h1)
    · rcases List.mem_cons.mp h2 with h3 | h4
      · exact absurd (congrArg Prod.snd h3) hji
      · exact List.mem_append.mpr (Or.inr h4)
  refine ⟨⟨?_, ?_, ?_, ?_, ?_, ?_, ?_⟩, ⟨d.block.hash, hb0⟩, hdeadNew⟩
  · have hkn := hw.keysNodup
    rw [hm, List.map_append, List.map_cons] at hkn
    have hsub : ((m1 ++ m2).map Prod.fst).Sublist
        (m1.map Prod.fst ++ d.block.hash :: m2.map Prod.fst) := by
      rw [List.map_append]
      exact (List.sublist_cons_self d.block.hash (m2.map Prod.fst)).append_left (m1.map Prod.fst)
    show ((aerase s.bmap d.block.hash).map Prod.fst).Nodup
    rw [he]
    exact hsub.nodup hkn
  · exact keyMatches_of _ s (fun p hp => mem_aerase hp)
      (fun j => set_block_eq { d with ndeps := decWrap d.ndeps } hx rfl j) hw.km
  · exact hashInj_of _ s
      (fun j => set_block_eq { d with ndeps := decWrap d.ndeps } hx rfl j) hw.hashInj
  · intro p hp i' hi'
    have := hw.loseIds p hp i' hi'
    simpa [List.length_set] using this
  · intro j d' hd' i' hi'
    rw [List.length_set]
    by_cases hji : i = j
    · subst hji
      rw [List.getElem?_set_self hlen] at hd'
      injection hd' with hdd
      rw [← hdd] at hi'
      exact hw.depsIds i d hx i' hi'
    · rw [List.getElem?_set_ne hji] at hd'
      exact hw.depsIds j d' hd' i' hi'
  · intro j d' hd' ha
    obtain ⟨h', hh'⟩ := ha
    have hji : j ≠ i := by
      intro hji
      rw [hji] at hh'
      exact hdeadNew h' hh'
    have haS : Alive s j := ⟨h', hmemOld hh'⟩
    rw [List.getElem?_set_ne (fun hh => hji hh.symm)] at hd'
    obtain ⟨hle, hz⟩ := hw.aliveAcct j d' hd' haS
    have hoccj := hoccE j
    rw [if_neg (fun hh => hji hh.symm)] at hoccj
    exact ⟨by omega, fun hzz => by have := hz hzz; omega⟩
  · intro j d' hd' ha
    by_cases hji : j = i
    · subst hji
      rw [List.getElem?_set_self hlen] at hd'
      injection hd' with hdd
      obtain ⟨hle, -⟩ := hw.aliveAcct j d hx ⟨d.block.hash, hb0⟩
      have hoccj := hoccE j
      rw [if_pos rfl] at hoccj
      rw [← hdd]
      dsimp only
      exact Or.inl ⟨hn0, by omega⟩
    · have haS : ¬ Alive s j := by
        intro hsj
        obtain ⟨h', hh'⟩ := hsj
        exact ha ⟨h', hmemBack hji hh'⟩
      rw [List.getElem?_set_ne (fun hh => hji hh.symm)] at hd'
      have hold := hw.deadAcct j d' hd' haS
      have hoccj := hoccE j
      rw [if_neg (fun hh => hji hh.symm)] at hoccj
      exact deadShape_mono (by omega) hold

/-! ## Length and (block, ndeps) preservation lemmas for AddBlock -/

theorem updDep_eq_set {st : List Dep} {i : Nat} {d : Dep} (f : Dep → Dep)
    (hd : st[i]? = some d) : updDep st i f = st.set i (f d) := by
  unfold updDep
  rw [hd]

theorem updDep_length (st : List Dep) (i : Nat) (f : Dep → Dep) :
    (updDep st i f).length = st.length := by
  unfold updDep
  cases st[i]? with
  | none => rfl
  | some d => rw [List.length_set]

theorem commonInsert_store_length (i h : Nat) (s : Obc) :
    (commonInsert i h s).store.length = s.store.length := by
  cases hb : alookup s.bmap h with
  | none => rw [commonInsert_eq_of_bmap_none hb]
  | some e =>
    rw [commonInsert_eq_of_bmap_some hb]
    exact updDep_length _ _ _

theorem addBlockInserts_store_length (i : Nat) (b : Block) (mask : Nat) (s : Obc) :
    (addBlockInserts i b mask s).store.length = s.store.length := by
  unfold addBlockInserts
  cases maskM mask <;> cases maskT mask <;> cases maskP mask <;>
    simp [commonInsert_store_length]

theorem addBlock_store_length (s : Obc) (b : Block) (mask : Nat) (hm : mask ≠ 0) :
    (AddBlock s b mask).store.length = s.store.length + 1 := by
  simp only [AddBlock, if_neg hm]
  show (updDep (addBlockInserts _ b mask (addBlockBase s b)).store _ _).length = _
  rw [updDep_length, addBlockInserts_store_length]
  exact List.length_append _ _

theorem updDep_bn_eq (st : List Dep) (e : Nat) (f : Dep → Dep)
    (hf : ∀ d, (f d).block = d.block ∧ (f d).ndeps = d.ndeps) (i : Nat) :
    ((updDep st e f)[i]?).map (fun d => (d.block, d.ndeps)) =
      (st[i]?).map (fun d => (d.block, d.ndeps)) := by
  unfold updDep
  cases hst : st[e]? with
  | none => rfl
  | some d =>
    by_cases hie : e = i
    · subst hie
      obtain ⟨hlt, -⟩ := List.getElem?_eq_some_iff.mp hst
      rw [List.getElem?_set_self (by simpa using hlt), hst]
      simp [(hf d).1, (hf d).2]
    · rw [List.getElem?_set_ne hie]

theorem commonInsert_bn_eq (i h : Nat) (s : Obc) (j : Nat) :
    (((commonInsert i h s).store)[j]?).map (fun d => (d.block, d.ndeps)) =
      ((s.store)[j]?).map (fun d => (d.block, d.ndeps)) := by
  cases hb : alookup s.bmap h with
  | none => rw [commonInsert_eq_of_bmap_none hb]
  | some e =>
    rw [commonInsert_eq_of_bmap_some hb]
    exact updDep_bn_eq s.store e (fun d => { d with deps := d.deps ++ [i] })
      (fun d => ⟨rfl, rfl⟩) j

theorem addBlockInserts_bn_eq (i : Nat) (b : Block) (mask : Nat) (s : Obc) (j : Nat) :
    (((addBlockInserts i b mask s).store)[j]?).map (fun d => (d.block, d.ndeps)) =
      ((s.store)[j]?).map (fun d => (d.block, d.ndeps)) := by
  unfold addBlockInserts
  cases maskM mask <;> cases maskT mask <;> cases maskP mask <;>
    simp [commonInsert_bn_eq]

theorem getElem_bn_of_map_eq {stA stB : List Dep} {j : Nat} {d : Dep}
    (heq : (stA[j]?).map (fun d => (d.block, d.ndeps)) =
      (stB[j]?).map (fun d => (d.block, d.ndeps)))
    (hd : stB[j]? = some d) :
    ∃ d', stA[j]? = some d' ∧ d'.block = d.block ∧ d'.ndeps = d.ndeps := by
  rw [hd] at heq
  cases hx : stA[j]? with
  | none => rw [hx] at heq; exact absurd heq (by simp)
  | some d' =>
    rw [hx] at heq
    simp only [Option.map_some', Option.some.injEq, Prod.mk.injEq] at heq
    exact ⟨d', rfl, heq.1, heq.2⟩

theorem keyMatches_commonInsert {t : Obc} (i h : Nat) (hk : KeyMatches t) :
    KeyMatches (commonInsert i h t) := by
  refine keyMatches_of (commonInsert i h t) t ?_ (commonInsert_block_eq i h t) hk
  intro p hp
  rw [commonInsert_bmap] at hp
  exact hp

/-! ## Registration counting through AddBlock -/

theorem occ_commonInsert_old (len P : Nat) (t : Obc) {j : Nat} (hj : j ≠ len) :
    occ (commonInsert len P t) [] j = occ t [] j := by
  cases hb : alookup t.bmap P with
  | some e =>
    rw [commonInsert_eq_of_bmap_some hb]
    unfold occ loseOcc depOcc
    dsimp only
    congr 1
    congr 1
    refine congrArg List.sum (List.map_congr_left ?_)
    intro p hp
    unfold updDep
    cases hde : t.store[e]? with
    | none => rfl
    | some de =>
      by_cases hpe : e = p.2
      · obtain ⟨hlt, -⟩ := List.getElem?_eq_some_iff.mp hde
        rw [← hpe, List.getElem?_set_self hlt, hde]
        dsimp only
        rw [List.count_append, List.count_singleton]
        have : ¬ len = j := fun hh => hj hh.symm
        simp [this]
      · rw [List.getElem?_set_ne hpe]
  | none =>
    rw [commonInsert_eq_of_bmap_none hb]
    unfold occ loseOcc depOcc
    dsimp only
    congr 2
    cases hlk : alookup t.lose P with
    | none =>
      rw [aset_of_alookup_none hlk, List.map_append, List.sum_append]
      simp [count_sinsert_ne hj]
    | some w =>
      obtain ⟨m1, m2, hm, -, -, hs⟩ := alookup_decomp hlk
      rw [hs, hm, List.map_append, List.map_cons, List.map_append, List.map_cons,
        List.sum_append, List.sum_cons, List.sum_append, List.sum_cons]
      simp only [Option.getD_some]
      rw [count_sinsert_ne hj]

theorem occ_commonInsert_new (len P : Nat) (t : Obc)
    (hn : (t.bmap.map Prod.fst).Nodup) (hkm : KeyMatches t) :
    occ (commonInsert len P t) [] len ≤ occ t [] len + 1 := by
  cases hb : alookup t.bmap P with
  | some e =>
    obtain ⟨de, hde, hdeh⟩ := hkm _ (mem_of_alookup_eq_some hb)
    have hde' : t.store[e]? = some de := hde
    have hP : P = de.block.hash := by
      have hh : de.block.hash = P := hdeh
      exact hh.symm
    obtain ⟨m1, m2, hm, -, -, -⟩ := alookup_decomp hb
    have hno := no_other_value_binding hn hkm hm
    rw [commonInsert_eq_of_bmap_some hb]
    unfold occ loseOcc depOcc
    dsimp only
    rw [updDep_eq_set _ hde']
    have hterm : ∀ p ∈ m1 ++ m2,
        (match (t.store.set e { de with deps := de.deps ++ [len] })[p.2]? with
          | some d' => d'.deps.count len
          | none => 0) =
        (match t.store[p.2]? with
          | some d' => d'.deps.count len
          | none => 0) := by
      intro p hp
      have hpe : e ≠ p.2 := by
        intro hep
        exact hno p.1 (by rw [← Prod.mk.eta (p := p), ← hep] at hp; exact hp)
      rw [List.getElem?_set_ne hpe]
    have hlt : e < t.store.length := (List.getElem?_eq_some_iff.mp hde').1
    rw [hm, List.map_append, List.map_cons, List.sum_append, List.sum_cons,
      List.map_append, List.map_cons, List.sum_append, List.sum_cons,
      List.map_congr_left (fun p hp => hterm p (List.mem_append.mpr (Or.inl hp))),
      List.map_congr_left (fun p hp => hterm p (List.mem_append.mpr (Or.inr hp)))]
    dsimp only
    rw [List.getElem?_set_self hlt, hde']
    dsimp only
    rw [List.count_append, List.count_singleton]
    simp only [beq_self_eq_true, if_pos]
    omega
  | none =>
    rw [commonInsert_eq_of_bmap_none hb]
    unfold occ loseOcc depOcc
    dsimp only
    have hcount := count_sinsert_le len len ((alookup t.lose P).getD [])
    cases hlk : alookup t.lose P with
    | none =>
      rw [aset_of_alookup_none hlk, List.map_append, List.sum_append]
      rw [hlk] at hcount
      have hc2 : List.count len (sinsert len ((none : Option (List Nat)).getD [])) ≤ 1 := by
        simpa using hcount
      simp only [List.map_cons, List.map_nil, List.sum_cons, List.sum_nil]
      omega
    | some w =>
      obtain ⟨m1, m2, hm, -, -, hs⟩ := alookup_decomp hlk
      rw [hs, hm, List.map_append, List.map_cons, List.map_append, List.map_cons,
        List.sum_append, List.sum_cons, List.sum_append, List.sum_cons]
      rw [hlk] at hcount
      simp only [Option.getD_some] at hcount ⊢
      omega

/-! ## Support lemmas for AddBlock preservation -/

theorem obc_ite_pres (P : Obc → Prop) (c : Prop) [Decidable c] (f : Obc → Obc)
    (hf : ∀ t, P t → P (f t)) {s : Obc} (h : P s) : P (if c then f s else s) := by
  by_cases hc : c
  · rw [if_pos hc]
    exact hf s h
  · rw [if_neg hc]
    exact h

theorem keysNodup_commonInsert {t : Obc} (i h : Nat)
    (hn : (t.bmap.map Prod.fst).Nodup) : ((commonInsert i h t).bmap.map Prod.fst).Nodup := by
  rw [commonInsert_bmap]
  exact hn

theorem keyMatches_addBlockBase {s : Obc} (b : Block) (hkm : KeyMatches s)
    (hnolook : alookup s.bmap b.hash = none) : KeyMatches (addBlockBase s b) := by
  intro p hp
  have hp' : p ∈ s.bmap ++ [(b.hash, s.store.length)] := by
    rw [← aset_of_alookup_none hnolook (s.store.length)]
    exact hp
  rcases List.mem_append.mp hp' with h1 | h2
  · obtain ⟨d, hd, hh⟩ := hkm p h1
    have hplen : p.2 < s.store.length := (List.getElem?_eq_some_iff.mp hd).1
    refine ⟨d, ?_, hh⟩
    show (s.store ++ [(⟨b, 0, []⟩ : Dep)])[p.2]? = some d
    rw [List.getElem?_append_left hplen]
    exact hd
  · rw [List.mem_singleton] at h2
    refine ⟨⟨b, 0, []⟩, ?_, ?_⟩
    · show (s.store ++ [(⟨b, 0, []⟩ : Dep)])[p.2]? = some ⟨b, 0, []⟩
      rw [congrArg Prod.snd h2]
      exact List.getElem?_concat_length _ _
    · rw [congrArg Prod.fst h2]

theorem keysNodup_addBlockBase {s : Obc} (b : Block)
    (hn : (s.bmap.map Prod.fst).Nodup) (hkeyfresh : b.hash ∉ s.bmap.map Prod.fst)
    (hnolook : alookup s.bmap b.hash = none) :
    ((addBlockBase s b).bmap.map Prod.fst).Nodup := by
  show ((aset s.bmap b.hash s.store.length).map Prod.fst).Nodup
  rw [aset_of_alookup_none hnolook, List.map_append, List.map_singleton]
  refine List.Nodup.append hn (List.nodup_singleton _) ?_
  intro a ha hb2
  rw [List.mem_singleton] at hb2
  rw [hb2] at ha
  exact hkeyfresh ha

theorem depsIds_addBlockBase {s : Obc} (b : Block) (Q : Nat → Prop)
    (hQ : ∀ j : Nat, ∀ d : Dep, s.store[j]? = some d → ∀ x ∈ d.deps, Q x) :
    ∀ j : Nat, ∀ d : Dep, (addBlockBase s b).store[j]? = some d → ∀ x ∈ d.deps, Q x := by
  intro j d hd x hx
  have hd' : (s.store ++ [(⟨b, 0, []⟩ : Dep)])[j]? = some d := hd
  by_cases hjl : j < s.store.length
  · rw [List.getElem?_append_left hjl] at hd'
    exact hQ j d hd' x hx
  · rw [List.getElem?_append_right (Nat.le_of_not_lt hjl)] at hd'
    cases hk : j - s.store.length with
    | zero =>
      rw [hk] at hd'
      have hd2 : some (⟨b, 0, []⟩ : Dep) = some d := by simpa using hd'
      injection hd2 with hdd
      rw [← hdd] at hx
      exact absurd hx (List.not_mem_nil x)
    | succ k =>
      rw [hk] at hd'
      exact absurd hd' (by simp)

theorem commonInsert_lose_bound (i h : Nat) (t : Obc) (Q : Nat → Prop) (hQi : Q i)
    (hQ : ∀ p ∈ t.lose, ∀ x ∈ p.2, Q x) :
    ∀ p ∈ (commonInsert i h t).lose, ∀ x ∈ p.2, Q x := by
  cases hb : alookup t.bmap h with
  | some e =>
    rw [commonInsert_eq_of_bmap_some hb]
    exact hQ
  | none =>
    rw [commonInsert_eq_of_bmap_none hb]
    intro p hp x hx
    rcases mem_aset hp with he | ho
    · have hp2 : p.2 = sinsert i ((alookup t.lose h).getD []) := congrArg Prod.snd he
      rw [hp2] at hx
      unfold sinsert at hx
      by_cases hmm : i ∈ (alookup t.lose h).getD []
      · rw [if_pos hmm] at hx
        cases hlk : alookup t.lose h with
        | none =>
          rw [hlk] at hx
          exact absurd hx (by simp)
        | some w =>
          rw [hlk] at hx
          exact hQ (h, w) (mem_of_alookup_eq_some hlk) x hx
      · rw [if_neg hmm] at hx
        rcases List.mem_append.mp hx with h1 | h2
        · cases hlk : alookup t.lose h with
          | none =>
            rw [hlk] at h1
            exact absurd h1 (by simp)
          | some w =>
            rw [hlk] at h1
            exact hQ (h, w) (mem_of_alookup_eq_some hlk) x h1
        · rw [List.mem_singleton] at h2
          rw [h2]
          exact hQi
    · exact hQ p ho x hx

theorem commonInsert_deps_bound (i h : Nat) (t : Obc) (Q : Nat → Prop) (hQi : Q i)
    (hQ : ∀ j : Nat, ∀ d : Dep, t.store[j]? = some d → ∀ x ∈ d.deps, Q x) :
    ∀ j : Nat, ∀ d : Dep, (commonInsert i h t).store[j]? = some d → ∀ x ∈ d.deps, Q x := by
  cases hb : alookup t.bmap h with
  | none =>
    rw [commonInsert_eq_of_bmap_none hb]
    exact hQ
  | some e =>
    rw [commonInsert_eq_of_bmap_some hb]
    intro j d hd x hx
    have hd' : (updDep t.store e fun dd => { dd with deps := dd.deps ++ [i] })[j]? = some d := hd
    unfold updDep at hd'
    cases hde : t.store[e]? with
    | none =>
      rw [hde] at hd'
      exact hQ j d hd' x hx
    | some de =>
      rw [hde] at hd'
      by_cases hej : e = j
      · subst hej
        have hlt : e < t.store.length := (List.getElem?_eq_some_iff.mp hde).1
        rw [List.getElem?_set_self hlt] at hd'
        injection hd' with hdd
        rw [← hdd] at hx
        rcases List.mem_append.mp hx with h1 | h2
        · exact hQ e de hde x h1
        · rw [List.mem_singleton] at h2
          rw [h2]
          exact hQi
      · rw [List.getElem?_set_ne hej] at hd'
        exact hQ j d hd' x hx

theorem occ_addBlockBase_new {s : Obc} (b : Block) (hkm : KeyMatches s)
    (hlose : ∀ p ∈ s.lose, ∀ i ∈ p.2, i < s.store.length)
    (hdeps : ∀ j : Nat, ∀ d : Dep, s.store[j]? = some d → ∀ i ∈ d.deps, i < s.store.length)
    (hnolook : alookup s.bmap b.hash = none) :
    occ (addBlockBase s b) [] s.store.length = 0 := by
  unfold occ loseOcc depOcc addBlockBase
  dsimp only
  rw [aset_of_alookup_none hnolook, List.map_append, List.sum_append]
  have hL : (s.lose.map (fun p => p.2.count s.store.length)).sum = 0 := by
    apply List.sum_eq_zero
    intro x hx
    obtain ⟨p, hp, hpe⟩ := List.mem_map.mp hx
    rw [← hpe, List.count_eq_zero]
    intro hmem
    exact absurd (hlose p hp _ hmem) (by omega)
  have hD : (s.bmap.map (fun p =>
      match (s.store ++ [(⟨b, 0, []⟩ : Dep)])[p.2]? with
      | some d => d.deps.count s.store.length
      | none => 0)).sum = 0 := by
    apply List.sum_eq_zero
    intro x hx
    obtain ⟨p, hp, hpe⟩ := List.mem_map.mp hx
    obtain ⟨d, hd, -⟩ := hkm p hp
    have hplen : p.2 < s.store.length := (List.getElem?_eq_some_iff.mp hd).1
    rw [← hpe, List.getElem?_append_left hplen, hd, List.count_eq_zero]
    intro hmem
    exact absurd (hdeps p.2 d hd _ hmem) (by omega)
  have hS : (match (s.store ++ [(⟨b, 0, []⟩ : Dep)])[s.store.length]? with
      | some d => d.deps.count s.store.length
      | none => 0) = 0 := by
    rw [List.getElem?_concat_length]
    rfl
  rw [hL, hD]
  simp [hS]

theorem occ_addBlockBase_old {s : Obc} (b : Block) (hkm : KeyMatches s)
    (hnolook : alookup s.bmap b.hash = none) (j : Nat) :
    occ (addBlockBase s b) [] j = occ s [] j := by
  unfold occ loseOcc depOcc addBlockBase
  dsimp only
  rw [aset_of_alookup_none hnolook, List.map_append, List.sum_append]
  have hB : ∀ p ∈ s.bmap, (match (s.store ++ [(⟨b, 0, []⟩ : Dep)])[p.2]? with
      | some d => d.deps.count j
      | none => 0) =
      (match s.store[p.2]? with
      | some d => d.deps.count j
      | none => 0) := by
    intro p hp
    obtain ⟨d, hd, -⟩ := hkm p hp
    have hplen : p.2 < s.store.length := (List.getElem?_eq_some_iff.mp hd).1
    rw [List.getElem?_append_left hplen]
  have hS : (match (s.store ++ [(⟨b, 0, []⟩ : Dep)])[s.store.length]? with
      | some d => d.deps.count j
      | none => 0) = 0 := by
    rw [List.getElem?_concat_length]
    rfl
  rw [List.map_congr_left hB]
  simp [hS]

theorem occKN_step (c : Prop) [Decidable c] (len' P : Nat) (t : Obc)
    (h : KeyMatches t ∧ (t.bmap.map Prod.fst).Nodup) :
    (occ (if c then commonInsert len' P t else t) [] len' ≤ occ t [] len' + 1) ∧
      (KeyMatches (if c then commonInsert len' P t else t) ∧
        (((if c then commonInsert len' P t else t).bmap.map Prod.fst).Nodup)) := by
  by_cases hc : c
  · rw [if_pos hc]
    exact ⟨occ_commonInsert_new len' P t h.2 h.1,
      keyMatches_commonInsert _ _ h.1, keysNodup_commonInsert _ _ h.2⟩
  · rw [if_neg hc]
    exact ⟨Nat.le_succ _, h⟩

theorem addBlockInserts_occ_old (len' : Nat) (b : Block) (mask : Nat) (t : Obc) {j : Nat}
    (hj : j ≠ len') :
    occ (addBlockInserts len' b mask t) [] j = occ t [] j := by
  unfold addBlockInserts
  refine obc_ite_pres (fun u => occ u [] j = occ t [] j) _ _
    (fun u hu => (occ_commonInsert_old len' b.prev u hj).trans hu) ?_
  refine obc_ite_pres (fun u => occ u [] j = occ t [] j) _ _
    (fun u hu => (occ_commonInsert_old len' b.tip u hj).trans hu) ?_
  exact obc_ite_pres (fun u => occ u [] j = occ t [] j) _ _
    (fun u hu => (occ_commonInsert_old len' b.ms u hj).trans hu) rfl

theorem addBlockInserts_occ_new_le (len' : Nat) (b : Block) (mask : Nat) (t : Obc)
    (ht : KeyMatches t ∧ (t.bmap.map Prod.fst).Nodup) :
    occ (addBlockInserts len' b mask t) [] len' ≤ occ t [] len' + 3 := by
  unfold addBlockInserts
  dsimp only
  obtain ⟨o1, k1⟩ := occKN_step (maskM mask = true) len' b.ms t ht
  obtain ⟨o2, k2⟩ := occKN_step (maskT mask = true) len' b.tip _ k1
  obtain ⟨o3, k3⟩ := occKN_step (maskP mask = true) len' b.prev _ k2
  omega

theorem addBlockInserts_occ_new_zero (len' : Nat) (b : Block) (mask : Nat) (t : Obc)
    (hM : ¬ maskM mask = true) (hT : ¬ maskT mask = true) (hP : ¬ maskP mask = true) :
    occ (addBlockInserts len' b mask t) [] len' = occ t [] len' := by
  unfold addBlockInserts
  dsimp only
  rw [if_neg hM, if_neg hT, if_neg hP]

theorem updDep_getElem_ne (st : List Dep) (i : Nat) (f : Dep → Dep) {j : Nat}
    (hij : i ≠ j) : (updDep st i f)[j]? = st[j]? := by
  unfold updDep
  cases st[i]? with
  | none => rfl
  | some d => exact List.getElem?_set_ne hij

theorem addBlock_bmap_mem {s : Obc} (b : Block) (mask : Nat) (hm : mask ≠ 0)
    (hnolook : alookup s.bmap b.hash = none) (p : Nat × Nat) :
    p ∈ (AddBlock s b mask).bmap ↔ p ∈ s.bmap ∨ p = (b.hash, s.store.length) := by
  rw [addBlock_bmap s b mask hm, aset_of_alookup_none hnolook]
  constructor
  · intro hp
    rcases List.mem_append.mp hp with h1 | h2
    · exact Or.inl h1
    · exact Or.inr (List.mem_singleton.mp h2)
  · rintro (h1 | h2)
    · exact List.mem_append.mpr (Or.inl h1)
    · exact List.mem_append.mpr (Or.inr (List.mem_singleton.mpr h2))

theorem addBlock_store_char {s : Obc} (b : Block) (mask : Nat) (hm : mask ≠ 0) :
    ∀ k : Nat, ∀ dk : Dep, (AddBlock s b mask).store[k]? = some dk →
      (k = s.store.length ∧ dk.block = b ∧
        dk.ndeps = (maskedParents b mask).dedup.length) ∨
      (k < s.store.length ∧ ∃ dk0 : Dep, s.store[k]? = some dk0 ∧ dk.block = dk0.block ∧
        dk.ndeps = dk0.ndeps) := by
  intro k dk hdk
  have hlenf : (AddBlock s b mask).store.length = s.store.length + 1 :=
    addBlock_store_length s b mask hm
  by_cases hkl : k < s.store.length
  · right
    refine ⟨hkl, ?_⟩
    have hbn : ((AddBlock s b mask).store[k]?).map (fun d => (d.block, d.ndeps)) =
        (s.store[k]?).map (fun d => (d.block, d.ndeps)) := by
      simp only [AddBlock, if_neg hm]
      show ((updDep (addBlockInserts s.store.length b mask (addBlockBase s b)).store
          s.store.length _)[k]?).map _ = _
      rw [updDep_getElem_ne _ _ _ (by omega : s.store.length ≠ k), addBlockInserts_bn_eq]
      show ((s.store ++ [(⟨b, 0, []⟩ : Dep)])[k]?).map _ = _
      rw [List.getElem?_append_left hkl]
    obtain ⟨dk0, hd0, hb0, hn0⟩ := getElem_bn_of_map_eq hbn.symm hdk
    exact ⟨dk0, hd0, hb0.symm, hn0.symm⟩
  · left
    have hkb : k < s.store.length + 1 := by
      have := (List.getElem?_eq_some_iff.mp hdk).1
      omega
    have hkeq : k = s.store.length := by omega
    subst hkeq
    obtain ⟨d, hd, hb, hn⟩ := addBlock_new_dep s b mask hm
    rw [hd] at hdk
    injection hdk with hdd
    rw [← hdd]
    exact ⟨rfl, hb, hn⟩

theorem wf_addBlock {s : Obc} (b : Block) (mask : Nat)
    (hfresh : ∀ d ∈ s.store, d.block.hash ≠ b.hash) (hw : WF s []) :
    WF (AddBlock s b mask) [] := by
  by_cases hm : mask = 0
  · simp only [AddBlock, if_pos hm]
    exact hw
  have hnolook : alookup s.bmap b.hash = none := by
    cases hcl : alookup s.bmap b.hash with
    | none => rfl
    | some e =>
      obtain ⟨d, hd, hh⟩ := hw.km _ (mem_of_alookup_eq_some hcl)
      have hh' : d.block.hash = b.hash := hh
      exact absurd hh' (hfresh d (List.getElem?_mem hd))
  have hkeyfresh : b.hash ∉ s.bmap.map Prod.fst := by
    intro hmem
    obtain ⟨p, hp, hpe⟩ := List.mem_map.mp hmem
    obtain ⟨d, hd, hh⟩ := hw.km p hp
    exact hfresh d (List.getElem?_mem hd) (by rw [hh, hpe])
  have hbkm : KeyMatches (addBlockBase s b) := keyMatches_addBlockBase b hw.km hnolook
  have hbnd : ((addBlockBase s b).bmap.map Prod.fst).Nodup :=
    keysNodup_addBlockBase b hw.keysNodup hkeyfresh hnolook
  have hbase_len : (addBlockBase s b).store[s.store.length]? = some (⟨b, 0, []⟩ : Dep) :=
    List.getElem?_concat_length _ _
  obtain ⟨d4, hd4, hb4, hn4⟩ := getElem_bn_of_map_eq
    (addBlockInserts_bn_eq s.store.length b mask (addBlockBase s b) s.store.length) hbase_len
  have hfinal : AddBlock s b mask =
      ⟨(addBlockInserts s.store.length b mask (addBlockBase s b)).store.set s.store.length
          { d4 with ndeps := (maskedParents b mask).dedup.length },
        (addBlockInserts s.store.length b mask (addBlockBase s b)).bmap,
        (addBlockInserts s.store.length b mask (addBlockBase s b)).lose⟩ := by
    simp only [AddBlock, if_neg hm]
    rw [updDep_eq_set _ hd4]
  have hIlen : (addBlockInserts s.store.length b mask (addBlockBase s b)).store.length =
      s.store.length + 1 := by
    rw [addBlockInserts_store_length]
    exact List.length_append _ _
  have hlenlt : s.store.length <
      (addBlockInserts s.store.length b mask (addBlockBase s b)).store.length := by omega
  have hoccF : ∀ j, occ (AddBlock s b mask) [] j =
      occ (addBlockInserts s.store.length b mask (addBlockBase s b)) [] j := by
    intro j
    rw [hfinal]
    exact occ_setNdeps _ [] hd4 _ j
  have hoccOld : ∀ j, j ≠ s.store.length →
      occ (addBlockInserts s.store.length b mask (addBlockBase s b)) [] j = occ s [] j := by
    intro j hj
    rw [addBlockInserts_occ_old _ b mask _ hj, occ_addBlockBase_old b hw.km hnolook]
  have haliveIff : ∀ j, j ≠ s.store.length → (Alive (AddBlock s b mask) j ↔ Alive s j) := by
    intro j hj
    constructor
    · rintro ⟨h', hh'⟩
      rcases (addBlock_bmap_mem b mask hm hnolook (h', j)).mp hh' with h1 | h2
      · exact ⟨h', h1⟩
      · exact absurd (congrArg Prod.snd h2) hj
    · rintro ⟨h', hh'⟩
      exact ⟨h', (addBlock_bmap_mem b mask hm hnolook (h', j)).mpr (Or.inl hh')⟩
  refine ⟨?_, keyMatches_addBlock b mask hw.km, ?_, ?_, ?_, ?_, ?_⟩
  · show ((AddBlock s b mask).bmap.map Prod.fst).Nodup
    rw [hfinal]
    show ((addBlockInserts s.store.length b mask (addBlockBase s b)).bmap.map Prod.fst).Nodup
    rw [addBlockInserts_bmap]
    exact hbnd
  · intro i j di dj hdi hdj hij
    rcases addBlock_store_char b mask hm i di hdi with ⟨hie, hib, -⟩ | ⟨hil, di0, hdi0, hib, -⟩ <;>
      rcases addBlock_store_char b mask hm j dj hdj with ⟨hje, hjb, -⟩ | ⟨hjl, dj0, hdj0, hjb, -⟩
    · exact absurd (hie.trans hje.symm) hij
    · rw [hib, hjb]
      intro hh
      exact hfresh dj0 (List.getElem?_mem hdj0) hh.symm
    · rw [hib, hjb]
      intro hh
      exact hfresh di0 (List.getElem?_mem hdi0) hh
    · rw [hib, hjb]
      exact hw.hashInj i j di0 dj0 hdi0 hdj0 hij
  · intro p hp x hx
    have hp' : p ∈ (addBlockInserts s.store.length b mask (addBlockBase s b)).lose := by
      rw [hfinal] at hp
      exact hp
    have hloseB : ∀ q ∈ (addBlockInserts s.store.length b mask (addBlockBase s b)).lose,
        ∀ y ∈ q.2, y < s.store.length + 1 := by
      unfold addBlockInserts
      dsimp only
      refine obc_ite_pres (fun u => ∀ q ∈ u.lose, ∀ y ∈ q.2, y < s.store.length + 1) _ _
        (fun u hu => commonInsert_lose_bound _ _ u _ (by omega) hu) ?_
      refine obc_ite_pres (fun u => ∀ q ∈ u.lose, ∀ y ∈ q.2, y < s.store.length + 1) _ _
        (fun u hu => commonInsert_lose_bound _ _ u _ (by omega) hu) ?_
      refine obc_ite_pres (fun u => ∀ q ∈ u.lose, ∀ y ∈ q.2, y < s.store.length + 1) _ _
        (fun u hu => commonInsert_lose_bound _ _ u _ (by omega) hu) ?_
      intro q hq y hy
      have := hw.loseIds q hq y hy
      omega
    have := hloseB p hp' x hx
    rw [addBlock_store_length s b mask hm]
    exact this
  · intro j d hd x hx
    have hdepsB : ∀ k : Nat, ∀ dk : Dep,
        (addBlockInserts s.store.length b mask (addBlockBase s b)).store[k]? = some dk →
        ∀ y ∈ dk.deps, y < s.store.length + 1 := by
      unfold addBlockInserts
      dsimp only
      refine obc_ite_pres (fun u => ∀ k : Nat, ∀ dk : Dep, u.store[k]? = some dk →
          ∀ y ∈ dk.deps, y < s.store.length + 1) _ _
        (fun u hu => commonInsert_deps_bound _ _ u _ (by omega) hu) ?_
      refine obc_ite_pres (fun u => ∀ k : Nat, ∀ dk : Dep, u.store[k]? = some dk →
          ∀ y ∈ dk.deps, y < s.store.length + 1) _ _
        (fun u hu => commonInsert_deps_bound _ _ u _ (by omega) hu) ?_
      refine obc_ite_pres (fun u => ∀ k : Nat, ∀ dk : Dep, u.store[k]? = some dk →
          ∀ y ∈ dk.deps, y < s.store.length + 1) _ _
        (fun u hu => commonInsert_deps_bound _ _ u _ (by omega) hu) ?_
      exact depsIds_addBlockBase b _ (fun k dk hdk y hy => by
        have := hw.depsIds k dk hdk y hy
        omega)
    rw [addBlock_store_length s b mask hm]
    have hd' : ((addBlockInserts s.store.length b mask (addBlockBase s b)).store.set
        s.store.length { d4 with ndeps := (maskedParents b mask).dedup.length })[j]? =
        some d := by
      rw [hfinal] at hd
      exact hd
    by_cases hjl : s.store.length = j
    · rw [← hjl, List.getElem?_set_self hlenlt] at hd'
      injection hd' with hdd
      rw [← hdd] at hx
      exact hdepsB s.store.length d4 hd4 x hx
    · rw [List.getElem?_set_ne hjl] at hd'
      exact hdepsB j d hd' x hx
  · intro j d hd halive
    rw [hoccF j]
    have hd' : ((addBlockInserts s.store.length b mask (addBlockBase s b)).store.set
        s.store.length { d4 with ndeps := (maskedParents b mask).dedup.length })[j]? =
        some d := by
      rw [hfinal] at hd
      exact hd
    by_cases hjl : j = s.store.length
    · subst hjl
      rw [List.getElem?_set_self hlenlt] at hd'
      injection hd' with hdd
      rw [← hdd]
      dsimp only
      by_cases hbits : maskM mask = true ∨ maskT mask = true ∨ maskP mask = true
      · have h0 : occ (addBlockBase s b) [] s.store.length = 0 :=
          occ_addBlockBase_new b hw.km hw.loseIds hw.depsIds hnolook
        have h3 := addBlockInserts_occ_new_le s.store.length b mask (addBlockBase s b)
          ⟨hbkm, hbnd⟩
        have hk1 : 1 ≤ (maskedParents b mask).dedup.length := by
          have hne : maskedParents b mask ≠ [] := by
            unfold maskedParents
            rcases hbits with h | h | h <;> rw [h] <;> simp
          have hdne : (maskedParents b mask).dedup ≠ [] :=
            fun hh => hne ((List.dedup_eq_nil _).mp hh)
          have := List.length_pos.mpr hdne
          omega
        exact ⟨by omega, fun hzz => by omega⟩
      · push_neg at hbits
        obtain ⟨hM, hT, hP⟩ := hbits
        have h0 : occ (addBlockBase s b) [] s.store.length = 0 :=
          occ_addBlockBase_new b hw.km hw.loseIds hw.depsIds hnolook
        have hz := addBlockInserts_occ_new_zero s.store.length b mask (addBlockBase s b)
          hM hT hP
        have hmp : maskedParents b mask = [] := by
          unfold maskedParents
          rw [if_neg hM, if_neg hT, if_neg hP]
          rfl
        rw [hmp]
        exact ⟨by omega, fun _ => by omega⟩
    · rw [List.getElem?_set_ne (fun hh => hjl hh.symm)] at hd'
      have hjlt : j < s.store.length := by
        have hb1 := (List.getElem?_eq_some_iff.mp hd').1
        omega
      have hchain : (s.store[j]?).map (fun dd => (dd.block, dd.ndeps)) =
          ((addBlockInserts s.store.length b mask
            (addBlockBase s b)).store[j]?).map (fun dd => (dd.block, dd.ndeps)) := by
        rw [addBlockInserts_bn_eq]
        show _ = ((s.store ++ [(⟨b, 0, []⟩ : Dep)])[j]?).map _
        rw [List.getElem?_append_left hjlt]
      obtain ⟨dk0, hd0, hb0, hn0c⟩ := getElem_bn_of_map_eq hchain hd'
      have haliveS : Alive s j := (haliveIff j hjl).mp halive
      obtain ⟨hle, hz⟩ := hw.aliveAcct j dk0 hd0 haliveS
      rw [hoccOld j hjl, ← hn0c]
      exact ⟨hle, hz⟩
  · intro j d hd hdead
    rw [hoccF j]
    have hd' : ((addBlockInserts s.store.length b mask (addBlockBase s b)).store.set
        s.store.length { d4 with ndeps := (maskedParents b mask).dedup.length })[j]? =
        some d := by
      rw [hfinal] at hd
      exact hd
    by_cases hjl : j = s.store.length
    · exfalso
      apply hdead
      refine ⟨b.hash, ?_⟩
      rw [hjl]
      exact (addBlock_bmap_mem b mask hm hnolook _).mpr (Or.inr rfl)
    · rw [List.getElem?_set_ne (fun hh => hjl hh.symm)] at hd'
      have hjlt : j < s.store.length := by
        have hb1 := (List.getElem?_eq_some_iff.mp hd').1
        omega
      have hchain : (s.store[j]?).map (fun dd => (dd.block, dd.ndeps)) =
          ((addBlockInserts s.store.length b mask
            (addBlockBase s b)).store[j]?).map (fun dd => (dd.block, dd.ndeps)) := by
        rw [addBlockInserts_bn_eq]
        show _ = ((s.store ++ [(⟨b, 0, []⟩ : Dep)])[j]?).map _
        rw [List.getElem?_append_left hjlt]
      obtain ⟨dk0, hd0, hb0, hn0c⟩ := getElem_bn_of_map_eq hchain hd'
      have hdeadS : ¬ Alive s j := fun hsj => hdead ((haliveIff j hjl).mpr hsj)
      have := hw.deadAcct j dk0 hd0 hdeadS
      rw [hoccOld j hjl, ← hn0c]
      exact this

theorem accInv_addBlock {s : Obc} (b : Block) (mask : Nat) {acc : List Block}
    (hfresh : ∀ d ∈ s.store, d.block.hash ≠ b.hash) (hw : WF s [])
    (ha : AccInv s acc) : AccInv (AddBlock s b mask) acc := by
  by_cases hm : mask = 0
  · simp only [AddBlock, if_pos hm]
    exact ha
  have hnolook : alookup s.bmap b.hash = none := by
    cases hcl : alookup s.bmap b.hash with
    | none => rfl
    | some e =>
      obtain ⟨d, hd, hh⟩ := hw.km _ (mem_of_alookup_eq_some hcl)
      have hh' : d.block.hash = b.hash := hh
      exact absurd hh' (hfresh d (List.getElem?_mem hd))
  refine accInv_of _ s acc ?_ (fun j hj => addBlock_block_eq_old s b mask j hj) ha
  intro p hp
  rcases (addBlock_bmap_mem b mask hm hnolook p).mp hp with h1 | h2
  · exact Or.inl h1
  · right
    rw [congrArg Prod.snd h2]

theorem wf_submitStart {s : Obc} {h : Nat} {waiting : List Nat}
    (hl : alookup s.lose h = some waiting) (hw : WF s []) :
    WF ⟨s.store, s.bmap, aerase s.lose h⟩ waiting.reverse := by
  refine ⟨hw.keysNodup, hw.km, hw.hashInj, ?_, hw.depsIds, ?_, ?_⟩
  · intro p hp i' hi'
    exact hw.loseIds p (mem_aerase hp) i' hi'
  · intro j d hd ha
    rw [occ_submitStart hl j]
    exact hw.aliveAcct j d hd ha
  · intro j d hd ha
    rw [occ_submitStart hl j]
    exact hw.deadAcct j d hd ha

/-! ## The master invariant along whole runs -/

theorem submitLoop_acc (fuel : Nat) : ∀ (s : Obc) (stk : List Nat) (acc : List Block),
    submitLoop fuel s stk acc =
      ((submitLoop fuel s stk []).1, acc ++ (submitLoop fuel s stk []).2) := by
  induction fuel with
  | zero =>
    intro s stk acc
    rw [submitLoop_zero, submitLoop_zero]
    simp
  | succ fuel ih =>
    intro s stk acc
    cases stk with
    | nil =>
      rw [submitLoop_nil, submitLoop_nil]
      simp
    | cons i stk =>
      cases hx : s.store[i]? with
      | none =>
        rw [submitLoop_cons_none _ _ _ hx, submitLoop_cons_none _ _ _ hx, ih]
      | some d =>
        by_cases hn : decWrap d.ndeps > 0
        · rw [submitLoop_cons_cont _ _ _ hx hn, submitLoop_cons_cont _ _ _ hx hn, ih]
        · rw [submitLoop_cons_emit _ _ _ hx hn, submitLoop_cons_emit _ _ _ hx hn,
            ih _ _ (acc ++ [d.block]), ih _ _ ([] ++ [d.block])]
          simp

theorem submitLoop_master (fuel : Nat) : ∀ (s : Obc) (stk : List Nat) (acc : List Block),
    WF s stk → AccInv s acc →
    WF (submitLoop fuel s stk acc).1 [] ∧
      AccInv (submitLoop fuel s stk acc).1 (submitLoop fuel s stk acc).2 := by
  induction fuel with
  | zero =>
    intro s stk acc hw ha
    rw [submitLoop_zero]
    exact ⟨wf_drop hw, ha⟩
  | succ fuel ih =>
    intro s stk acc hw ha
    cases stk with
    | nil =>
      rw [submitLoop_nil]
      exact ⟨hw, ha⟩
    | cons i stk =>
      cases hx : s.store[i]? with
      | none =>
        rw [submitLoop_cons_none fuel stk acc hx]
        exact ih _ _ _ (wf_pop hw) ha
      | some d =>
        by_cases hn : decWrap d.ndeps > 0
        · rw [submitLoop_cons_cont fuel stk acc hx hn]
          refine ih _ _ _ (wf_step_cont hw hx hn) ?_
          exact accInv_of _ s acc (fun p hp => Or.inl hp)
            (fun j _ => set_block_eq { d with ndeps := decWrap d.ndeps } hx rfl j) ha
        · rw [submitLoop_cons_emit fuel stk acc hx hn]
          obtain ⟨hw', halive, hdeadNew⟩ := wf_step_emit hw hx hn
          have hlen : i < s.store.length := (List.getElem?_eq_some_iff.mp hx).1
          have hnotin : d.block ∉ acc := by
            intro hmem
            obtain ⟨i', d2, hd2, hbd2, hdead2⟩ := ha.2 _ hmem
            by_cases hii : i' = i
            · subst hii
              obtain ⟨h0, hb0⟩ := halive
              exact hdead2 h0 hb0
            · exact hw.hashInj i' i d2 d hd2 hx hii (by rw [hbd2])
          have haOld : AccInv
              ⟨s.store.set i { d with ndeps := decWrap d.ndeps },
                aerase s.bmap d.block.hash, s.lose⟩ acc :=
            accInv_of _ s acc (fun p hp => Or.inl (mem_aerase hp))
              (fun j _ => set_block_eq { d with ndeps := decWrap d.ndeps } hx rfl j) ha
          refine ih _ _ _ hw' ⟨?_, ?_⟩
          · refine List.Nodup.append haOld.1 (List.nodup_singleton _) ?_
            intro a hamem hasing
            rw [List.mem_singleton] at hasing
            rw [hasing] at hamem
            exact hnotin hamem
          · intro bb hbb
            rcases List.mem_append.mp hbb with hold | hnew
            · exact haOld.2 bb hold
            · rw [List.mem_singleton] at hnew
              refine ⟨i, { d with ndeps := decWrap d.ndeps },
                List.getElem?_set_self hlen, ?_, hdeadNew⟩
              rw [hnew]

theorem wf_submitHash {s : Obc} (h : Nat) {acc : List Block} (hw : WF s [])
    (ha : AccInv s acc) :
    WF (SubmitHash s h).1 [] ∧ AccInv (SubmitHash s h).1 (acc ++ (SubmitHash s h).2.getD []) := by
  cases hl : alookup s.lose h with
  | none =>
    rw [submitHash_eq_of_not_awaited hl]
    refine ⟨hw, ?_⟩
    simpa using ha
  | some waiting =>
    rw [submitHash_eq_of_awaited hl]
    unfold submitHashRun
    have hstart := wf_submitStart hl hw
    have haS : AccInv ⟨s.store, s.bmap, aerase s.lose h⟩ acc :=
      accInv_of _ s acc (fun p hp => Or.inl hp) (fun j _ => rfl) ha
    have hres := submitLoop_master
      (fuelBound { s with lose := aerase s.lose h } waiting)
      ⟨s.store, s.bmap, aerase s.lose h⟩ waiting.reverse acc hstart haS
    rw [submitLoop_acc] at hres
    exact hres

theorem wf_obc0 : WF obc0 [] := by
  refine ⟨List.nodup_nil, ?_, ?_, ?_, ?_, ?_, ?_⟩
  · intro p hp
    exact absurd hp (List.not_mem_nil p)
  · intro i j di dj hdi
    exact absurd hdi (by simp [obc0])
  · intro p hp
    exact absurd hp (List.not_mem_nil p)
  · intro j d hd
    exact absurd hd (by simp [obc0])
  · intro i d hd
    exact absurd hd (by simp [obc0])
  · intro i d hd
    exact absurd hd (by simp [obc0])

theorem accInv_obc0 : AccInv obc0 [] :=
  ⟨List.nodup_nil, fun b hb => absurd hb (List.not_mem_nil b)⟩

theorem runFrom_master : ∀ (cs : List Call) (s : Obc) (log : List Block),
    freshOk s cs = true → WF s [] → AccInv s log →
    AccInv (runFrom s log cs).1 (runFrom s log cs).2 ∧ WF (runFrom s log cs).1 [] := by
  intro cs
  induction cs with
  | nil => exact fun s log _ hw ha => ⟨ha, hw⟩
  | cons c cs ih =>
    intro s log hok hw ha
    cases c with
    | add b m =>
      simp only [freshOk, Bool.and_eq_true] at hok
      have hfresh : ∀ d ∈ s.store, d.block.hash ≠ b.hash := by
        intro d hd
        have hall := hok.1
        rw [List.all_eq_true] at hall
        have h2 := hall d hd
        simpa using h2
      have hred : runFrom s log (Call.add b m :: cs) = runFrom (AddBlock s b m) log cs := by
        show runFrom (AddBlock s b m) (log ++ []) cs = _
        rw [List.append_nil]
      rw [hred]
      exact ih _ _ hok.2 (wf_addBlock b m hfresh hw) (accInv_addBlock b m hfresh hw ha)
    | submit hh =>
      simp only [freshOk] at hok
      obtain ⟨hw', ha'⟩ := wf_submitHash hh hw ha
      exact ih _ _ hok hw' ha'

/-! ## C1 — transitive release on SubmitHash -/

/-- C1, counterexample.  The claim states that a block is emitted by some
`SubmitHash` call as soon as all its declared missing parents have been
supplied directly or transitively via released blocks.  In the spec's own
Scenario E order — `AddBlock(C, missing prev = B)` first, then
`AddBlock(B, missing prev = A)` — `SubmitHash(A)` returns only `B`: the code
links a dependent into a `deps` list only when its missing parent is already
in `block_dep_map_` at `AddBlock` time, and `AddBlock` never ties the new
block's own hash to the lose ends already waiting for it.  Here `C`'s only
declared missing parent is `B`'s hash, `B` is released, yet `C` is never
emitted. -/
theorem submitHash_no_transitive_release_via_lose_end :
    maskedParents exC 4 = [exB.hash] ∧
    (run [.add exC 4, .add exB 4, .submit exA.hash]).2 = [exB] ∧
    exB ∈ (run [.add exC 4, .add exB 4, .submit exA.hash]).2 ∧
    exC ∉ (run [.add exC 4, .add exB 4, .submit exA.hash]).2 := by
  decide

/-- C1, amended.  Transitive release in a single `SubmitHash` call happens
exactly through `deps` links, i.e. for dependents added while their missing
parent was already in `block_dep_map_`: with `B` (missing prev `A`) added
before `C` (missing prev `B`), `SubmitHash(A)` releases `[B, C]` in one call;
with `C` added first, `SubmitHash(A)` releases only `[B]`, `C` stays in the
container, and a later `SubmitHash(B)` releases it. -/
theorem submitHash_cascade_order_dependent :
    (run [.add exB 4, .add exC 4, .submit exA.hash]).2 = [exB, exC] ∧
    (run [.add exC 4, .add exB 4, .submit exA.hash]).2 = [exB] ∧
    Contains (run [.add exC 4, .add exB 4, .submit exA.hash]).1 exC.hash = true ∧
    (run [.add exC 4, .add exB 4, .submit exA.hash, .submit exB.hash]).2 = [exB, exC] := by
  decide

/-! ## C2 — lose ends versus block_dep_map keys -/

/-- C2, counterexample.  After `AddBlock(C, missing prev = B)` followed by
`AddBlock(B, missing prev = A)`, the hash of `B` is simultaneously a key of
`lose_ends_` (C still waits for it there) and a key of `block_dep_map_`
(B itself is an orphan): `AddBlock` inserts the new block into
`block_dep_map_` without removing the lose ends already waiting for its
hash. -/
theorem lose_end_and_dep_map_key_overlap :
    (alookup (run [.add exC 4, .add exB 4]).1.lose exB.hash).isSome = true ∧
    (alookup (run [.add exC 4, .add exB 4]).1.bmap exB.hash).isSome = true := by
  decide

/-! ## C3 — no double release -/

/-- C3, counterexample.  When `AddBlock` is called twice with the same block
(`insert_or_assign` replaces the `block_dep_map_` entry), both dep objects
remain registered under the lose end for the missing parent, and
`SubmitHash(A)` then emits the block twice. -/
theorem double_release_on_replacing_addBlock :
    (run [.add exB 4, .add exB 4, .submit exA.hash]).2 = [exB, exB] ∧
    ¬ (run [.add exB 4, .add exB 4, .submit exA.hash]).2.Nodup := by
  decide

/-- C3, amended.  Provided every `AddBlock` call's block hash differs from the
hash of every previously added block (no `insert_or_assign` replacement,
checked by `freshOk`), no block appears more than once in the concatenation of
all `SubmitHash` results of the run.  Duplicate parent hashes are allowed and
do not cause a double release. -/
theorem no_double_release_of_fresh_hashes (cs : List Call)
    (hok : freshOk obc0 cs = true) : ((run cs).2).Nodup := by
  have hres := runFrom_master cs obc0 [] hok wf_obc0 accInv_obc0
  exact hres.1.1

/-- C3, witness for `no_double_release_of_fresh_hashes` on a run where a
block (`exDup`) lists the same parent hash twice: the cascade releases each
block exactly once. -/
theorem no_double_release_of_fresh_hashes_witness :
    freshOk obc0 [Call.add exX 4, Call.add exDup 3, Call.submit 5] = true ∧
    ((run [Call.add exX 4, Call.add exDup 3, Call.submit 5]).2).Nodup ∧
    (run [Call.add exX 4, Call.add exDup 3, Call.submit 5]).2 = [exX, exDup] :=
  ⟨by decide, no_double_release_of_fresh_hashes _ (by decide), by decide⟩

/-! ## C4 — oversized ADDR message -/

/-- C4, counterexample.  An oversized ADDR list is dropped wholesale, but the
sending peer is not always kept connected: `ProcessAddressMessage` runs the
seed check regardless, so a seed peer is disconnected even when its message
was dropped as oversized (here the cap is 2 and the list has 3 entries). -/
theorem oversized_addr_from_seed_disconnects :
    ProcessAddressMessage 2 (fun _ => true) [⟨1, 1⟩, ⟨2, 2⟩, ⟨3, 3⟩] true =
      { added := [], relayed := none, disconnected := true } := by
  decide

/-- C4, amended.  For every ADDR message whose list exceeds
`kMaxAddressSize`: no address is added, nothing is relayed, and the sending
peer is disconnected exactly when it is a seed (a non-seed sender is kept). -/
theorem oversized_addr_dropped_keeps_nonseed (kMaxAddressSize : Nat)
    (routable : NetAddr → Bool) (addressList : List NetAddr) (peerIsSeed : Bool)
    (hlen : addressList.length > kMaxAddressSize) :
    ProcessAddressMessage kMaxAddressSize routable addressList peerIsSeed =
      { added := [], relayed := none, disconnected := peerIsSeed } := by
  unfold ProcessAddressMessage
  rw [if_pos hlen]

/-- C4, witness for `oversized_addr_dropped_keeps_nonseed` at a concrete
oversized message from a non-seed peer. -/
theorem oversized_addr_dropped_keeps_nonseed_witness :
    [(⟨1, 1⟩ : NetAddr), ⟨2, 2⟩, ⟨3, 3⟩].length > 2 ∧
    ProcessAddressMessage 2 (fun _ => true) [⟨1, 1⟩, ⟨2, 2⟩, ⟨3, 3⟩] false =
      { added := [], relayed := none, disconnected := false } :=
  ⟨by decide, oversized_addr_dropped_keeps_nonseed 2 _ _ false (by decide)⟩

/-! ## C5 — OpenConnection outbound cap -/

/-- C5, counterexample.  With the outbound count exactly equal to
`kMax_outbound` (8), the claim says the iteration skips; but the source guard
is `GetOutboundNum() > kMax_outbound`, so at 8 the iteration still proceeds
and dials the seed. -/
theorem openConnection_dials_at_exactly_kMax_outbound :
    openConnectionIter kMax_outbound (some ⟨7, 7⟩) [] (fun _ => false) (fun _ => 0) 0 =
      [⟨7, 7⟩] := by
  decide

/-- C5, amended.  An `OpenConnection` iteration skips (tries no seed, dials no
address) exactly when the current outbound count is strictly greater than
`kMax_outbound` (8); at a count of up to and including 8 it still proceeds,
in particular it dials an available seed. -/
theorem openConnection_skips_iff_above_kMax_outbound (outboundNum : Nat)
    (seed : Option NetAddr) (candidates : List NetAddr) (connected : NetAddr → Bool)
    (lastTry : NetAddr → Nat) (now : Nat) :
    (kMax_outbound < outboundNum →
      openConnectionIter outboundNum seed candidates connected lastTry now = []) ∧
    (outboundNum ≤ kMax_outbound → ∀ a, seed = some a →
      a ∈ openConnectionIter outboundNum seed candidates connected lastTry now) := by
  constructor
  · intro hgt
    unfold openConnectionIter
    rw [if_pos hgt]
  · intro hle a ha
    unfold openConnectionIter
    rw [if_neg (Nat.not_lt.mpr hle), ha]
    exact List.mem_append.mpr (Or.inl (List.mem_singleton.mpr rfl))

/-- C5, witness for `openConnection_skips_iff_above_kMax_outbound`: at 9
outbound connections the iteration is empty; at 8 it dials the seed. -/
theorem openConnection_skips_iff_above_kMax_outbound_witness :
    openConnectionIter 9 (some ⟨7, 7⟩) [] (fun _ => false) (fun _ => 0) 0 = [] ∧
    (⟨7, 7⟩ : NetAddr) ∈ openConnectionIter 8 (some ⟨7, 7⟩) [] (fun _ => false) (fun _ => 0) 0 :=
  ⟨(openConnection_skips_iff_above_kMax_outbound 9 (some ⟨7, 7⟩) [] (fun _ => false)
      (fun _ => 0) 0).1 (by decide),
    (openConnection_skips_iff_above_kMax_outbound 8 (some ⟨7, 7⟩) [] (fun _ => false)
      (fun _ => 0) 0).2 (by decide) ⟨7, 7⟩ rfl⟩

/-! ## C6 — CheckTimeout sweep -/

/-- C6: the `CheckTimeout` sweep decision for every peer.  A valid
fully-connected peer is disconnected-and-removed exactly when its last ping
time plus `kPingWaitTimeout` lies before `now`, or its ping-failure count
exceeds `kMaxPingFailures`, or its sync timed out; a valid
non-fully-connected peer exactly when its connection time plus
`kConnectionSetupTimeout` (180 s) lies before `now`; an invalid peer is
removed without a disconnect; and a peer survives the sweep of the peer map
iff its decision is `keep`. -/
theorem checkTimeout_sweep_characterization (p : Peer) (now : Nat) :
    (p.isVaild = true → p.isFullyConnected = true →
      (checkTimeoutAction p now = .disconnectRemove ↔
        (p.lastPingTime + kPingWaitTimeout < now ∨ kMaxPingFailures < p.nPingFailed ∨
          p.syncTimeout = true))) ∧
    (p.isVaild = true → p.isFullyConnected = false →
      (checkTimeoutAction p now = .disconnectRemove ↔
        p.connected_time + kConnectionSetupTimeout < now)) ∧
    (p.isVaild = false → checkTimeoutAction p now = .removeOnly) ∧
    (∀ peers : List Peer,
      p ∈ CheckTimeout peers now ↔ p ∈ peers ∧ checkTimeoutAction p now = .keep) ∧
    kConnectionSetupTimeout = 180 := by
  refine ⟨?_, ?_, ?_, ?_, rfl⟩
  · intro hv hf
    simp only [checkTimeoutAction, hv, hf]
    by_cases h1 : p.lastPingTime + kPingWaitTimeout < now ∨ kMaxPingFailures < p.nPingFailed
    · simp [h1]
      tauto
    · by_cases h2 : p.syncTimeout <;> simp [h1, h2]
  · intro hv hf
    simp only [checkTimeoutAction, hv, hf]
    by_cases h1 : p.connected_time + kConnectionSetupTimeout < now <;> simp [h1]
  · intro hv
    simp [checkTimeoutAction, hv]
  · intro peers
    simp [CheckTimeout, List.mem_filter]

/-- C6, witness for `checkTimeout_sweep_characterization`: the example peer
(valid, fully connected, last ping at 0, no failures, no sync timeout) is
disconnected at `now = 200` since `0 + 180 < 200`, and accordingly does not
survive a sweep. -/
theorem checkTimeout_sweep_characterization_witness :
    checkTimeoutAction exPeer 200 = .disconnectRemove ∧
    (exPeer ∈ CheckTimeout [exPeer] 200 ↔ exPeer ∈ [exPeer] ∧ checkTimeoutAction exPeer 200 = .keep) :=
  ⟨((checkTimeout_sweep_characterization exPeer 200).1 rfl rfl).mpr (Or.inl (by decide)),
    ((checkTimeout_sweep_characterization exPeer 200).2.2.2.1 [exPeer])⟩

/-! ## C7 — SubmitHash without matching lose end -/

/-- C7: `SubmitHash(h)` for a hash that is not a key of `lose_ends_` is a
no-op: it returns the empty optional and leaves the whole container state —
`block_dep_map_`, `lose_ends_` and every stored dep's `ndeps` — unchanged. -/
theorem submitHash_noop_without_lose_end (s : Obc) (h : Nat)
    (hn : alookup s.lose h = none) : SubmitHash s h = (s, none) :=
  submitHash_eq_of_not_awaited hn

/-- C7, witness for `submitHash_noop_without_lose_end` on a non-empty
container (holding B as an orphan, awaiting hash 10) queried with hash 99. -/
theorem submitHash_noop_without_lose_end_witness :
    alookup (run [Call.add exB 4]).1.lose 99 = none ∧
    SubmitHash (run [Call.add exB 4]).1 99 = ((run [Call.add exB 4]).1, none) :=
  ⟨by decide, submitHash_noop_without_lose_end (run [Call.add exB 4]).1 99 (by decide)⟩

/-! ## C8 — ndeps counts distinct missing parents -/

/-- C8: after `AddBlock(block, mask)` with a non-zero mask, the newly stored
dep (at the fresh store index) carries the block and has `ndeps` equal to the
cardinality of the *set* of parent hashes selected by the mask — a block
whose masked parent fields repeat a hash counts it once
(`unique_missing_hashes` in the source). -/
theorem addBlock_ndeps_counts_distinct_parents (s : Obc) (b : Block) (mask : Nat)
    (hm : mask ≠ 0) :
    ∃ d : Dep, (AddBlock s b mask).store[s.store.length]? = some d ∧ d.block = b ∧
      d.ndeps = (maskedParents b mask).toFinset.card := by
  obtain ⟨d, hd, hb, hn⟩ := addBlock_new_dep s b mask hm
  exact ⟨d, hd, hb, by rw [hn, List.card_toFinset]⟩

/-- C8, witness for `addBlock_ndeps_counts_distinct_parents`: adding the
example block whose milestone and tip fields both carry hash 40 with mask
`M_MISSING | T_MISSING` yields `ndeps = 1`. -/
theorem addBlock_ndeps_counts_distinct_parents_witness :
    ∃ d : Dep, (AddBlock obc0 exDup 3).store[(0 : Nat)]? = some d ∧ d.block = exDup ∧
      d.ndeps = (maskedParents exDup 3).toFinset.card ∧
      (maskedParents exDup 3).toFinset.card = 1 := by
  obtain ⟨d, hd, hb, hn⟩ := addBlock_ndeps_counts_distinct_parents obc0 exDup 3 (by decide)
  exact ⟨d, hd, hb, hn, by decide⟩

/-! ## C9 — HasConnectedTo -/

/-- C9: `HasConnectedTo(addr)` is true iff some peer in the peer map has its
remote `address` or its peer-reported `address_me_` equal to the queried
address; on the modelled peer state this comparison is total, so the check is
well-defined for every peer map. -/
theorem hasConnectedTo_iff (peers : List Peer) (a : NetAddr) :
    HasConnectedTo peers a = true ↔ ∃ p ∈ peers, a = p.address ∨ a = p.address_me_ := by
  simp [HasConnectedTo]

/-! ## C2 (amended) — disjointness under the caller-side guard -/

/-- C2, amended.  In every state reachable by a call sequence in which each
`AddBlock` call's block hash is not currently a key of `lose_ends_`
(`loseOkSeq`), no hash is simultaneously a key of `lose_ends_` and a key of
`block_dep_map_`. -/
theorem lose_ends_disjoint_from_dep_map_of_guarded (cs : List Call)
    (hok : loseOkSeq obc0 cs = true) (h : Nat)
    (hl : (alookup (run cs).1.lose h).isSome = true) :
    alookup (run cs).1.bmap h = none := by
  have hd : LoseDisjoint (run cs).1 :=
    loseDisjoint_runFrom cs obc0 [] hok (fun _ _ hv => absurd hv (List.not_mem_nil _))
  obtain ⟨v, hv⟩ := (isSome_alookup_iff _ _).mp hl
  exact (alookup_eq_none_iff _ _).mpr (fun w hw => hd h v hv w hw)

/-- C2, witness for `lose_ends_disjoint_from_dep_map_of_guarded`: adding B
(missing prev A) and then C (missing prev B, with B already in the map)
satisfies the guard, hash 10 (= A) is then a lose end and is no key of
`block_dep_map_`. -/
theorem lose_ends_disjoint_from_dep_map_of_guarded_witness :
    loseOkSeq obc0 [Call.add exB 4, Call.add exC 4] = true ∧
    (alookup (run [Call.add exB 4, Call.add exC 4]).1.lose 10).isSome = true ∧
    alookup (run [Call.add exB 4, Call.add exC 4]).1.bmap 10 = none :=
  ⟨by decide, by decide,
    lose_ends_disjoint_from_dep_map_of_guarded [Call.add exB 4, Call.add exC 4]
      (by decide) 10 (by decide)⟩

/-! ## C10 — Contains -/

/-- C10: in every reachable container state, `Contains(h)` is true exactly
when `h` is the key of a `block_dep_map_` entry whose stored dep's block has
own hash `h` (a block currently held as an orphan); consequently `Contains`
is false for a hash that is only awaited in `lose_ends_` and is not such a
key. -/
theorem contains_iff_held_orphan (cs : List Call) (h : Nat) :
    (Contains (run cs).1 h = true ↔
      ∃ i d, alookup (run cs).1.bmap h = some i ∧ (run cs).1.store[i]? = some d ∧
        d.block.hash = h) ∧
    ((alookup (run cs).1.lose h).isSome = true → alookup (run cs).1.bmap h = none →
      Contains (run cs).1 h = false) := by
  constructor
  · constructor
    · intro hc
      obtain ⟨i, hi⟩ := Option.isSome_iff_exists.mp hc
      obtain ⟨d, hd, hh⟩ := keyMatches_run cs (h, i) (mem_of_alookup_eq_some hi)
      exact ⟨i, d, hi, hd, hh⟩
    · rintro ⟨i, d, hi, -, -⟩
      unfold Contains
      rw [hi]
      rfl
  · intro hl hn
    unfold Contains
    rw [hn]
    rfl

/-- C10, witness for `contains_iff_held_orphan`: after `AddBlock(C, prev
missing)`, `Contains(30)` is true and witnessed by the held block C itself,
while hash 20 — awaited as C's missing predecessor — gives `Contains = false`. -/
theorem contains_iff_held_orphan_witness :
    (∃ i d, alookup (run [Call.add exC 4]).1.bmap 30 = some i ∧
      (run [Call.add exC 4]).1.store[i]? = some d ∧ d.block.hash = 30) ∧
    Contains (run [Call.add exC 4]).1 20 = false :=
  ⟨(contains_iff_held_orphan [Call.add exC 4] 30).1.mp (by decide),
    (contains_iff_held_orphan [Call.add exC 4] 20).2 (by decide) (by decide)⟩

end Epic
